import Mathlib

/-!
Verification development for dfs-visual-explorer (src/app.py).

The file shallow-embeds the three search engines of the repository:
the Tower of Hanoi move planner (solve_hanoi_dfs), the Sudoku
backtracking solver and generator (solve_sudoku_dfs, find_empty,
is_valid_sudoku_move, generate_sudoku_puzzle), and the maze
generator/solver (generate_maze, solve_maze_dfs).  Mutation in the
Python source is modelled by explicit state passing; Python's
unbounded recursion and while loops are modelled with an explicit
fuel parameter where the source can diverge; Python randomness
(random.randint, random.shuffle, random.randrange) is modelled by
oracle arguments supplying the outcomes of the random choices.
-/

/- ======================================================================
   Tower of Hanoi (src/app.py lines 12-47)
   ====================================================================== -/

/-- The move string emitted by the Hanoi solver, Python's
f-string "Move disk {n} from {source} to {destination}". -/
def moveLine (n : Nat) (source : String) (destination : String) : String :=
  "Move disk " ++ toString n ++ " from " ++ source ++ " to " ++ destination

/-- solve_hanoi_dfs from src/app.py, as a function from the incoming
path_moves list to the list after all appends.  For n = 1 it appends the
single base-case move; for n ≥ 2 it recurses on n-1 (source to auxiliary),
appends the disk-n move, and recurses on n-1 again (auxiliary to
destination), exactly as the source.  The Python function does not
terminate for n = 0 (it recurses with ever smaller n); the 0 clause below
returns the accumulator unchanged and is never relied upon: every theorem
about this function assumes 1 ≤ n.  The divergence at n ≤ 0 itself is
modelled faithfully by hanoiRun below. -/
def solve_hanoi_dfs : Nat → String → String → String → List String → List String
  | 0, _, _, _, path_moves => path_moves
  | 1, source, destination, _, path_moves =>
      path_moves ++ [moveLine 1 source destination]
  | n + 2, source, destination, auxiliary, path_moves =>
      let after1 := solve_hanoi_dfs (n + 1) source auxiliary destination path_moves
      let after2 := after1 ++ [moveLine (n + 2) source destination]
      solve_hanoi_dfs (n + 1) auxiliary destination source after2

/-- Fuel-indexed interpreter of Python's solve_hanoi_dfs with the disk
count as a genuine (possibly negative) integer, as in the source, where
no validation constrains n.  Each recursive call consumes one unit of
fuel, so a run of the Python code that recurses deeper than the given
fuel is mapped to none: a result of none for every fuel means the Python
call never returns. -/
def hanoiRun : Nat → Int → String → String → String → List String → Option (List String)
  | 0, _, _, _, _, _ => none
  | fuel + 1, n, source, destination, auxiliary, path_moves =>
      if n = 1 then
        some (path_moves ++ [moveLine 1 source destination])
      else
        match hanoiRun fuel (n - 1) source auxiliary destination path_moves with
        | none => none
        | some after1 =>
            hanoiRun fuel (n - 1) auxiliary destination source
              (after1 ++ [moveLine n.toNat source destination])

/-- Helper: the Hanoi planner output extends the incoming accumulator. -/
theorem solve_hanoi_dfs_mem (n : Nat) (s d a : String) (acc : List String)
    (m : String) (hm : m ∈ solve_hanoi_dfs n s d a acc) :
    m ∈ acc ∨ ∃ k src dst, m = moveLine k src dst := by
  induction n generalizing s d a acc with
  | zero => exact Or.inl hm
  | succ p ih =>
    cases p with
    | zero =>
      simp only [solve_hanoi_dfs, List.mem_append, List.mem_singleton] at hm
      rcases hm with h | h
      · exact Or.inl h
      · exact Or.inr ⟨1, s, d, h⟩
    | succ q =>
      simp only [solve_hanoi_dfs] at hm
      rcases ih a d s _ hm with h | h
      · simp only [List.mem_append, List.mem_singleton] at h
        rcases h with h | h
        · exact ih s a d acc h
        · exact Or.inr ⟨q + 2, s, d, h⟩
      · exact Or.inr h

/-- Claim C1: for every n ≥ 1, solve_hanoi_dfs(n, source, destination,
auxiliary, path_moves) appends exactly 2^n - 1 moves to path_moves. -/
theorem solve_hanoi_dfs_length (n : Nat) (s d a : String) (acc : List String)
    (h : 1 ≤ n) :
    (solve_hanoi_dfs n s d a acc).length = acc.length + (2 ^ n - 1) := by
  induction n generalizing s d a acc with
  | zero => omega
  | succ p ih =>
    cases p with
    | zero => simp [solve_hanoi_dfs]
    | succ q =>
      simp only [solve_hanoi_dfs]
      rw [ih a d s _ (by omega)]
      rw [List.length_append, List.length_singleton, ih s a d acc (by omega)]
      have h2 : 2 ^ (q + 2) = 2 * 2 ^ (q + 1) := by ring
      have h1 : 1 ≤ 2 ^ (q + 1) := Nat.one_le_two_pow
      omega

/-- Witness for solve_hanoi_dfs_length at n = 3. -/
theorem solve_hanoi_dfs_length_witness :
    (solve_hanoi_dfs 3 "A" "C" "B" []).length = ([] : List String).length + (2 ^ 3 - 1) :=
  solve_hanoi_dfs_length 3 "A" "C" "B" [] (by decide)

/-- Claim C8: solve_hanoi_dfs(2, A, C, B, []) produces exactly the three
expected move strings, and in general every string the planner emits (for
n ≥ 1) has the exact format "Move disk {k} from {src} to {dst}". -/
theorem solve_hanoi_dfs_trace_and_format :
    (solve_hanoi_dfs 2 "A" "C" "B" [] =
      ["Move disk 1 from A to B", "Move disk 2 from A to C",
       "Move disk 1 from B to C"])
    ∧ ∀ (n : Nat) (s d a : String) (acc : List String) (m : String),
        1 ≤ n → m ∈ solve_hanoi_dfs n s d a acc →
        m ∈ acc ∨ ∃ k src dst, m = moveLine k src dst := by
  constructor
  · rfl
  · intro n s d a acc m _ hm
    exact solve_hanoi_dfs_mem n s d a acc m hm

/-- Witness for solve_hanoi_dfs_trace_and_format: the format statement
applied at the concrete run with n = 1. -/
theorem solve_hanoi_dfs_trace_and_format_witness :
    "Move disk 1 from A to C" ∈ ([] : List String) ∨
      ∃ k src dst, "Move disk 1 from A to C" = moveLine k src dst :=
  solve_hanoi_dfs_trace_and_format.2 1 "A" "C" "B" [] "Move disk 1 from A to C"
    (by decide) (by decide)

/-- Claim C5 (code bug): for n ≤ 0 the Python solve_hanoi_dfs performs no
validation at all; it recurses with n-1, n-2, ... unboundedly, so no
amount of fuel makes the run return.  The claim (and spec section 7)
requires an InvalidParameter rejection before any solving work begins;
the code instead diverges (in CPython, a RecursionError crash). -/
theorem hanoiRun_nonpos_diverges (fuel : Nat) (n : Int) (hn : n ≤ 0)
    (s d a : String) (acc : List String) :
    hanoiRun fuel n s d a acc = none := by
  induction fuel generalizing n s d a acc with
  | zero => rfl
  | succ f ih =>
    have hne : n ≠ 1 := by omega
    simp only [hanoiRun, if_neg hne]
    rw [ih (n - 1) (by omega)]

/-- Witness for hanoiRun_nonpos_diverges at n = 0 with fuel 5. -/
theorem hanoiRun_nonpos_diverges_witness :
    hanoiRun 5 0 "A" "C" "B" [] = none :=
  hanoiRun_nonpos_diverges 5 0 (by decide) "A" "C" "B" []

/- ======================================================================
   Sudoku (src/app.py lines 88-224)
   ====================================================================== -/

/-- A 9x9 Sudoku board, Python's list-of-lists indexed board[r][c]. -/
abbrev Board := Fin 9 → Fin 9 → Nat

/-- In-place assignment board[r0][c0] = v, modelled functionally. -/
def setCell (b : Board) (r0 c0 : Fin 9) (v : Nat) : Board :=
  fun r c => if r = r0 ∧ c = c0 then v else b r c

/-- All 81 positions in row-major order (the scan order of find_empty). -/
def cellsRowMajor : List (Fin 9 × Fin 9) :=
  (List.finRange 9).flatMap fun r => (List.finRange 9).map fun c => (r, c)

/-- find_empty from src/app.py: first cell equal to 0 in row-major
order, or none when the board is full. -/
def find_empty (b : Board) : Option (Fin 9 × Fin 9) :=
  cellsRowMajor.find? fun p => b p.1 p.2 == 0

/-- Start row/column of the 3x3 box containing index i:
Python's (i // 3) * 3. -/
def boxBase (i : Fin 9) : Nat := i.val / 3 * 3

/-- The cell of pos's 3x3 box at offset (i, j), Python's loop indices
r in [box_y*3, box_y*3+3), c in [box_x*3, box_x*3+3). -/
def boxCell (pos : Fin 9 × Fin 9) (i j : Fin 3) : Fin 9 × Fin 9 :=
  (⟨boxBase pos.1 + i.val, by
      have h1 := pos.1.isLt
      have h2 := i.isLt
      simp only [boxBase]
      omega⟩,
   ⟨boxBase pos.2 + j.val, by
      have h1 := pos.2.isLt
      have h2 := j.isLt
      simp only [boxBase]
      omega⟩)

/-- is_valid_sudoku_move from src/app.py: scans pos's full row, full
column and full 3x3 box, rejecting num if it is found at any cell other
than pos itself. -/
def is_valid_sudoku_move (board : Board) (num : Nat) (pos : Fin 9 × Fin 9) : Bool :=
  ((List.finRange 9).all fun col =>
      !(board pos.1 col == num && decide (pos.2 ≠ col))) &&
  ((List.finRange 9).all fun row =>
      !(board row pos.2 == num && decide (pos.1 ≠ row))) &&
  ((List.finRange 3).all fun i => (List.finRange 3).all fun j =>
      !(board (boxCell pos i j).1 (boxCell pos i j).2 == num &&
          decide (boxCell pos i j ≠ pos)))

/-- The candidate digits tried in ascending order: Python's range(1, 10). -/
def digitsList : List Nat := [1, 2, 3, 4, 5, 6, 7, 8, 9]

/-- The digit loop of solve_sudoku_dfs at the empty cell (row, col):
for each remaining candidate i, if the move is valid, place it, run the
recursive solver (passed in as solveF), propagate success, otherwise
undo the placement (reset the cell to 0) and try the next candidate.
The board is threaded explicitly: the Bool result is Python's return
value and the Board result is the state of the mutated board. -/
def tryDigits (solveF : Board → Bool × Board) (board : Board)
    (row col : Fin 9) : List Nat → Bool × Board
  | [] => (false, board)
  | i :: rest =>
      if is_valid_sudoku_move board i (row, col) then
        if (solveF (setCell board row col i)).1 then
          (true, (solveF (setCell board row col i)).2)
        else
          tryDigits solveF
            (setCell (solveF (setCell board row col i)).2 row col 0)
            row col rest
      else
        tryDigits solveF board row col rest

/-- solve_sudoku_dfs from src/app.py, with an explicit recursion-depth
fuel.  Each placement fills one of the at most 81 empty cells before
recursing, so the Python recursion never nests deeper than 82 frames;
solve_sudoku_dfs below therefore runs the interpreter with fuel 82,
and the fuel-exhausted clause (which reports failure) is unreachable
there.  On fuel+1: find the first empty cell; if none the board is
solved; otherwise run the digit loop with the solver at fuel as the
recursive call. -/
def solveAux : Nat → Board → Bool × Board
  | 0, board => (false, board)
  | fuel + 1, board =>
      match find_empty board with
      | none => (true, board)
      | some (row, col) => tryDigits (solveAux fuel) board row col digitsList

/-- solve_sudoku_dfs(board): Python returns only the Bool; the Board
component is the final state of the in-place-mutated board. -/
def solve_sudoku_dfs (board : Board) : Bool × Board :=
  solveAux 82 board

/-- The fixed base_board of generate_sudoku_puzzle (src/app.py lines
198-208), row by row; note the seeded 0 at row 6, column 7. -/
def baseRows : List (List Nat) :=
  [[3, 1, 6, 5, 7, 8, 4, 9, 2],
   [5, 2, 9, 1, 3, 4, 7, 6, 8],
   [4, 8, 7, 6, 2, 9, 5, 3, 1],
   [2, 6, 3, 4, 1, 5, 9, 8, 7],
   [9, 7, 4, 8, 6, 3, 1, 2, 5],
   [8, 5, 1, 7, 9, 2, 6, 4, 3],
   [1, 3, 8, 9, 5, 7, 2, 0, 4],
   [6, 9, 2, 3, 4, 1, 8, 7, 5],
   [7, 4, 5, 2, 8, 6, 3, 1, 9]]

/-- base_board as a Board. -/
def base_board : Board :=
  fun r c => (baseRows.getD r.val []).getD c.val 0

/-- Number of empty (zero) cells of a board. -/
def zeroCount (b : Board) : Nat :=
  (Finset.univ.filter fun p : Fin 9 × Fin 9 => b p.1 p.2 = 0).card

/-- Number of cells where two boards differ. -/
def diffCount (b b2 : Board) : Nat :=
  (Finset.univ.filter fun p : Fin 9 × Fin 9 => b p.1 p.2 ≠ b2 p.1 p.2).card

/-- The cell-removal while loop of generate_sudoku_puzzle: while
cells_removed < difficulty, draw a random cell (here: oracle applied to
a running draw index k); if it is nonzero, zero it and count it.  The
Python loop has no bound, so it is interpreted with fuel, one unit per
iteration; none means the loop was still running when the fuel ran out
(for difficulty 81 this happens for every fuel: the loop never exits). -/
def removeLoop (difficulty : Nat) (oracle : Nat → Fin 9 × Fin 9) :
    Nat → Nat → Nat → Board → Option Board
  | 0, _, _, _ => none
  | fuel + 1, k, cells_removed, b =>
      if cells_removed < difficulty then
        let p := oracle k
        if b p.1 p.2 ≠ 0 then
          removeLoop difficulty oracle fuel (k + 1) (cells_removed + 1)
            (setCell b p.1 p.2 0)
        else
          removeLoop difficulty oracle fuel (k + 1) cells_removed b
      else
        some b

/-- generate_sudoku_puzzle from src/app.py: copy base_board, then run
the removal loop. -/
def generate_sudoku_puzzle (difficulty : Nat) (oracle : Nat → Fin 9 × Fin 9)
    (fuel : Nat) : Option Board :=
  removeLoop difficulty oracle fuel 0 0 base_board

/-- Reading the written cell of setCell. -/
theorem setCell_same (b : Board) (r0 c0 : Fin 9) (v : Nat) :
    setCell b r0 c0 v r0 c0 = v := by
  simp [setCell]

/-- Reading any other cell of setCell. -/
theorem setCell_other (b : Board) (r0 c0 : Fin 9) (v : Nat) (r c : Fin 9)
    (h : (r, c) ≠ (r0, c0)) : setCell b r0 c0 v r c = b r c := by
  have h2 : ¬(r = r0 ∧ c = c0) := by
    intro hcon
    exact h (by rw [hcon.1, hcon.2])
  simp [setCell, h2]

/-- Overwriting a cell twice keeps only the second write. -/
theorem setCell_setCell (b : Board) (r0 c0 : Fin 9) (v w : Nat) :
    setCell (setCell b r0 c0 v) r0 c0 w = setCell b r0 c0 w := by
  funext r c
  by_cases h : r = r0 ∧ c = c0
  · simp [setCell, h]
  · simp [setCell, h]

/-- Writing the value a cell already holds is a no-op. -/
theorem setCell_self_eq (b : Board) (r0 c0 : Fin 9) (v : Nat)
    (h : b r0 c0 = v) : setCell b r0 c0 v = b := by
  funext r c
  by_cases h2 : r = r0 ∧ c = c0
  · simp [setCell, h2, ← h, h2.1, h2.2]
  · simp [setCell, h2]

/-- Every position occurs in the row-major scan list. -/
theorem mem_cellsRowMajor (p : Fin 9 × Fin 9) : p ∈ cellsRowMajor := by
  simp only [cellsRowMajor, List.mem_flatMap, List.mem_map, List.mem_finRange,
    true_and]
  exact ⟨p.1, p.2, rfl⟩

/-- The cell found by find_empty is empty. -/
theorem find_empty_some (b : Board) (p : Fin 9 × Fin 9)
    (h : find_empty b = some p) : b p.1 p.2 = 0 := by
  have h2 := List.find?_some h
  simpa using h2

/-- If find_empty reports none, the board has no empty cell. -/
theorem find_empty_none (b : Board) (h : find_empty b = none) (r c : Fin 9) :
    b r c ≠ 0 := by
  have h2 := List.find?_eq_none.mp h (r, c) (mem_cellsRowMajor (r, c))
  simpa using h2

/-- Backtracking restoration for the digit loop: if the recursive solver
restores the board on failure, then a failed run of the digit loop leaves
the board exactly as it found it (every tentatively placed digit has been
reset to 0). -/
theorem tryDigits_false_restores (solveF : Board → Bool × Board)
    (hF : ∀ x, (solveF x).1 = false → (solveF x).2 = x)
    (row col : Fin 9) (l : List Nat) :
    ∀ b : Board, b row col = 0 →
      (tryDigits solveF b row col l).1 = false →
      (tryDigits solveF b row col l).2 = b := by
  induction l with
  | nil => intro b _ _; rfl
  | cons i rest ih =>
    intro b hb hf
    by_cases hv : is_valid_sudoku_move b i (row, col) = true
    · by_cases hs2 : (solveF (setCell b row col i)).1 = true
      · simp only [tryDigits, if_pos hv, if_pos hs2] at hf
        exact absurd hf (by decide)
      · have hrest : setCell (solveF (setCell b row col i)).2 row col 0 = b := by
          have hb2 := hF (setCell b row col i) (by simpa using hs2)
          rw [hb2, setCell_setCell, setCell_self_eq b row col 0 hb]
        simp only [tryDigits, if_pos hv, if_neg hs2, hrest] at hf ⊢
        exact ih b hb hf
    · simp only [tryDigits, if_neg hv] at hf ⊢
      exact ih b hb hf

/-- Backtracking restoration for the fuel-indexed solver: a failed run
returns the board unchanged. -/
theorem solveAux_false_restores (fuel : Nat) :
    ∀ b : Board, (solveAux fuel b).1 = false → (solveAux fuel b).2 = b := by
  induction fuel with
  | zero => intro b _; rfl
  | succ f ih =>
    intro b hf
    rcases hfe : find_empty b with _ | ⟨row, col⟩
    · simp [solveAux, hfe] at hf
    · simp only [solveAux, hfe] at hf ⊢
      exact tryDigits_false_restores (solveAux f) ih row col digitsList b
        (find_empty_some b (row, col) hfe) hf

/-- Claim C6: if solve_sudoku_dfs returns False, the grid after the call
is identical to the grid before the call: every tentatively placed digit
has been reset to 0 by the explicit undo. -/
theorem sudoku_failure_restores (b : Board)
    (h : (solve_sudoku_dfs b).1 = false) : (solve_sudoku_dfs b).2 = b :=
  solveAux_false_restores 82 b h

/-- An unsolvable board: row 0 is 1..8 followed by an empty cell whose
digit would have to be 9, but column 8 already holds a 9 at row 1. -/
def stuckBoard : Board := fun r c =>
  if r.val = 0 then (if c.val = 8 then 0 else c.val + 1)
  else if r.val = 1 ∧ c.val = 8 then 9
  else 0

/-- Witness for sudoku_failure_restores: the solver fails on stuckBoard
and hands back exactly stuckBoard. -/
theorem sudoku_failure_restores_witness :
    (solve_sudoku_dfs stuckBoard).2 = stuckBoard :=
  sudoku_failure_restores stuckBoard (by decide)

/-- Two positions lie in the same 3x3 box. -/
def sameBox (p q : Fin 9 × Fin 9) : Prop :=
  p.1.val / 3 = q.1.val / 3 ∧ p.2.val / 3 = q.2.val / 3

/-- Semantic reading of is_valid_sudoku_move: no cell other than pos
itself, lying in pos's row, column or box, holds num. -/
def conflictFree (b : Board) (num : Nat) (pos : Fin 9 × Fin 9) : Prop :=
  ∀ q : Fin 9 × Fin 9, q ≠ pos →
    (q.1 = pos.1 ∨ q.2 = pos.2 ∨ sameBox q pos) → b q.1 q.2 ≠ num

/-- All non-zero cells of the board pass the source's validity check at
their own position (the invariant the spec states for mid-solve grids). -/
def consistent (b : Board) : Prop :=
  ∀ r c : Fin 9, b r c ≠ 0 → is_valid_sudoku_move b (b r c) (r, c) = true

/-- All entries of the board lie in the data model's range 0..9. -/
def boardLe9 (b : Board) : Prop := ∀ r c : Fin 9, b r c ≤ 9

/-- The board has no empty cell. -/
def noEmpty (b : Board) : Prop := ∀ r c : Fin 9, b r c ≠ 0

/-- The box cells enumerated by the source lie in pos's box. -/
theorem boxCell_sameBox (pos : Fin 9 × Fin 9) (i j : Fin 3) :
    sameBox (boxCell pos i j) pos := by
  have hi := i.isLt
  have hj := j.isLt
  constructor
  · show (boxBase pos.1 + i.val) / 3 = pos.1.val / 3
    simp only [boxBase]
    omega
  · show (boxBase pos.2 + j.val) / 3 = pos.2.val / 3
    simp only [boxBase]
    omega

/-- Every position in pos's box is enumerated by the source's box loop. -/
theorem sameBox_exists_boxCell (pos q : Fin 9 × Fin 9) (h : sameBox q pos) :
    ∃ i j : Fin 3, boxCell pos i j = q := by
  have h1 := h.1
  have h2 := h.2
  have hq1 := q.1.isLt
  have hq2 := q.2.isLt
  refine ⟨⟨q.1.val % 3, by omega⟩, ⟨q.2.val % 3, by omega⟩, ?_⟩
  apply Prod.ext
  · apply Fin.ext
    show boxBase pos.1 + q.1.val % 3 = q.1.val
    simp only [boxBase]
    omega
  · apply Fin.ext
    show boxBase pos.2 + q.2.val % 3 = q.2.val
    simp only [boxBase]
    omega

/-- The source's validity check is exactly conflict freedom. -/
theorem is_valid_iff (b : Board) (num : Nat) (pos : Fin 9 × Fin 9) :
    is_valid_sudoku_move b num pos = true ↔ conflictFree b num pos := by
  constructor
  · intro h
    simp only [is_valid_sudoku_move, Bool.and_eq_true, List.all_eq_true] at h
    obtain ⟨⟨h1, h2⟩, h3⟩ := h
    intro q hq hline hvq
    rcases hline with hrow | hcol | hbox
    · have hs := h1 q.2 (List.mem_finRange _)
      rw [← hrow] at hs
      simp only [Bool.not_eq_true', Bool.and_eq_false_iff, beq_eq_false_iff_ne,
        decide_eq_false_iff_not, not_not, ne_eq] at hs
      rcases hs with hs | hs
      · exact hs hvq
      · exact hq (Prod.ext hrow hs.symm)
    · have hs := h2 q.1 (List.mem_finRange _)
      rw [← hcol] at hs
      simp only [Bool.not_eq_true', Bool.and_eq_false_iff, beq_eq_false_iff_ne,
        decide_eq_false_iff_not, not_not, ne_eq] at hs
      rcases hs with hs | hs
      · exact hs hvq
      · exact hq (Prod.ext hs.symm hcol)
    · obtain ⟨i, j, hij⟩ := sameBox_exists_boxCell pos q hbox
      have hs := h3 i (List.mem_finRange _)
      simp only [List.all_eq_true] at hs
      have hs2 := hs j (List.mem_finRange _)
      rw [hij] at hs2
      simp only [Bool.not_eq_true', Bool.and_eq_false_iff, beq_eq_false_iff_ne,
        decide_eq_false_iff_not, not_not, ne_eq] at hs2
      rcases hs2 with hs2 | hs2
      · exact hs2 hvq
      · exact hq hs2
  · intro hcf
    simp only [is_valid_sudoku_move, Bool.and_eq_true, List.all_eq_true]
    refine ⟨⟨?_, ?_⟩, ?_⟩
    · intro col _
      simp only [Bool.not_eq_true', Bool.and_eq_false_iff, beq_eq_false_iff_ne,
        decide_eq_false_iff_not, not_not, ne_eq]
      by_cases hc : pos.2 = col
      · exact Or.inr hc
      · refine Or.inl (hcf (pos.1, col) ?_ (Or.inl rfl))
        intro he
        exact hc (congrArg Prod.snd he).symm
    · intro row _
      simp only [Bool.not_eq_true', Bool.and_eq_false_iff, beq_eq_false_iff_ne,
        decide_eq_false_iff_not, not_not, ne_eq]
      by_cases hr : pos.1 = row
      · exact Or.inr hr
      · refine Or.inl (hcf (row, pos.2) ?_ (Or.inr (Or.inl rfl)))
        intro he
        exact hr (congrArg Prod.fst he).symm
    · intro i _ j _
      simp only [Bool.not_eq_true', Bool.and_eq_false_iff, beq_eq_false_iff_ne,
        decide_eq_false_iff_not, not_not, ne_eq]
      by_cases hqp : boxCell pos i j = pos
      · exact Or.inr hqp
      · exact Or.inl (hcf (boxCell pos i j) hqp
          (Or.inr (Or.inr (boxCell_sameBox pos i j))))

/-- Placing a digit that passes the source's validity check at an empty
cell keeps every non-zero cell of the board conflict free. -/
theorem consistent_setCell (b : Board) (row col : Fin 9) (i : Nat)
    (hb : b row col = 0) (hi : i ≠ 0)
    (hv : is_valid_sudoku_move b i (row, col) = true)
    (hcons : consistent b) : consistent (setCell b row col i) := by
  have hvcf : conflictFree b i (row, col) := (is_valid_iff b i (row, col)).mp hv
  intro r c h0
  rw [is_valid_iff]
  by_cases hrc : (r, c) = (row, col)
  · obtain ⟨hr, hc2⟩ := Prod.mk.injEq r c row col ▸ hrc
    subst hr
    subst hc2
    have hval : setCell b r c i r c = i := setCell_same b r c i
    rw [hval]
    intro q hq hline
    rw [show ((r, c) : Fin 9 × Fin 9) = (r, c) from rfl] at hline
    rw [setCell_other b r c i q.1 q.2 (by simpa using hq)]
    exact hvcf q hq hline
  · have hval : setCell b row col i r c = b r c := setCell_other b row col i r c hrc
    rw [hval] at h0 ⊢
    intro q hq hline
    by_cases hq0 : q = (row, col)
    · subst hq0
      rw [setCell_same]
      intro hiv
      have halign : ((r, c) : Fin 9 × Fin 9).1 = row ∨
          ((r, c) : Fin 9 × Fin 9).2 = col ∨
          sameBox (r, c) (row, col) := by
        rcases hline with h | h | h
        · exact Or.inl h.symm
        · exact Or.inr (Or.inl h.symm)
        · exact Or.inr (Or.inr ⟨h.1.symm, h.2.symm⟩)
      exact hvcf (r, c) hrc halign hiv.symm
    · rw [setCell_other b row col i q.1 q.2 (by simpa using hq0)]
      exact ((is_valid_iff b (b r c) (r, c)).mp (hcons r c h0)) q hq hline

/-- Placing a digit at most 9 preserves the data-model range. -/
theorem boardLe9_setCell (b : Board) (row col : Fin 9) (i : Nat)
    (hi : i ≤ 9) (h9 : boardLe9 b) : boardLe9 (setCell b row col i) := by
  intro r c
  by_cases h : (r, c) = ((row, col) : Fin 9 × Fin 9)
  · obtain ⟨hr, hc2⟩ := Prod.mk.injEq r c row col ▸ h
    subst hr
    subst hc2
    rw [setCell_same]
    exact hi
  · rw [setCell_other b row col i r c h]
    exact h9 r c

/-- Success soundness of the digit loop: if the recursive solver turns
consistent in-range boards into full consistent in-range boards on
success and restores boards on failure, so does the digit loop, provided
it starts at an empty cell with candidates drawn from 1..9. -/
theorem tryDigits_true_spec (solveF : Board → Bool × Board)
    (hF : ∀ x, consistent x → boardLe9 x → (solveF x).1 = true →
      noEmpty (solveF x).2 ∧ consistent (solveF x).2 ∧ boardLe9 (solveF x).2)
    (hFr : ∀ x, (solveF x).1 = false → (solveF x).2 = x)
    (row col : Fin 9) (l : List Nat) (hl : ∀ i ∈ l, 1 ≤ i ∧ i ≤ 9) :
    ∀ b : Board, consistent b → boardLe9 b → b row col = 0 →
      (tryDigits solveF b row col l).1 = true →
      noEmpty (tryDigits solveF b row col l).2 ∧
        consistent (tryDigits solveF b row col l).2 ∧
        boardLe9 (tryDigits solveF b row col l).2 := by
  induction l with
  | nil =>
    intro b _ _ _ ht
    exact absurd ht (by simp [tryDigits])
  | cons i rest ih =>
    intro b hcons h9 hb ht
    have hil := hl i (List.mem_cons_self i rest)
    have hrestl : ∀ j ∈ rest, 1 ≤ j ∧ j ≤ 9 := fun j hj => hl j (List.mem_cons_of_mem i hj)
    by_cases hv : is_valid_sudoku_move b i (row, col) = true
    · by_cases hs2 : (solveF (setCell b row col i)).1 = true
      · simp only [tryDigits, if_pos hv, if_pos hs2] at ht ⊢
        exact hF (setCell b row col i)
          (consistent_setCell b row col i hb (by omega) hv hcons)
          (boardLe9_setCell b row col i (by omega) h9) hs2
      · have hrest : setCell (solveF (setCell b row col i)).2 row col 0 = b := by
          have hb2 := hFr (setCell b row col i) (by simpa using hs2)
          rw [hb2, setCell_setCell, setCell_self_eq b row col 0 hb]
        simp only [tryDigits, if_pos hv, if_neg hs2, hrest] at ht ⊢
        exact ih hrestl b hcons h9 hb ht
    · simp only [tryDigits, if_neg hv] at ht ⊢
      exact ih hrestl b hcons h9 hb ht

/-- Success soundness of the fuel-indexed solver: from a consistent
in-range board, success yields a full, consistent, in-range board. -/
theorem solveAux_true_spec (fuel : Nat) :
    ∀ b : Board, consistent b → boardLe9 b → (solveAux fuel b).1 = true →
      noEmpty (solveAux fuel b).2 ∧ consistent (solveAux fuel b).2 ∧
        boardLe9 (solveAux fuel b).2 := by
  induction fuel with
  | zero =>
    intro b _ _ ht
    exact absurd ht (by simp [solveAux])
  | succ f ih =>
    intro b hcons h9 ht
    rcases hfe : find_empty b with _ | ⟨row, col⟩
    · simp only [solveAux, hfe] at ht ⊢
      exact ⟨find_empty_none b hfe, hcons, h9⟩
    · simp only [solveAux, hfe] at ht ⊢
      exact tryDigits_true_spec (solveAux f) ih (solveAux_false_restores f)
        row col digitsList (by decide) b hcons h9
        (find_empty_some b (row, col) hfe) ht

/-- The cell of box p (box-row p.1, box-column p.2) at offset q. -/
def boxIdx (p q : Fin 3 × Fin 3) : Fin 9 × Fin 9 :=
  (⟨p.1.val * 3 + q.1.val, by have := p.1.isLt; have := q.1.isLt; omega⟩,
   ⟨p.2.val * 3 + q.2.val, by have := p.2.isLt; have := q.2.isLt; omega⟩)

/-- Row r contains digit d exactly once. -/
def rowOnce (b : Board) (r : Fin 9) (d : Nat) : Prop := ∃! c : Fin 9, b r c = d

/-- Column c contains digit d exactly once. -/
def colOnce (b : Board) (c : Fin 9) (d : Nat) : Prop := ∃! r : Fin 9, b r c = d

/-- Box p contains digit d exactly once. -/
def boxOnce (b : Board) (p : Fin 3 × Fin 3) (d : Nat) : Prop :=
  ∃! q : Fin 3 × Fin 3, b (boxIdx p q).1 (boxIdx p q).2 = d

/-- A full, consistent, in-range board has each digit 1..9 exactly once
in every row (pigeonhole over the 9 cells of the row). -/
theorem rowOnce_of_full (b : Board) (hne : noEmpty b) (hcons : consistent b)
    (h9 : boardLe9 b) (r : Fin 9) (d : Nat) (hd1 : 1 ≤ d) (hd9 : d ≤ 9) :
    rowOnce b r d := by
  have hinj : ∀ c c' : Fin 9, b r c = b r c' → c = c' := by
    intro c c' he
    by_contra hcc
    have hcf := (is_valid_iff b (b r c) (r, c)).mp (hcons r c (hne r c))
    exact hcf (r, c') (fun hh => hcc (congrArg Prod.snd hh).symm)
      (Or.inl rfl) he.symm
  have hfinj : Function.Injective
      (fun c : Fin 9 =>
        (⟨b r c - 1, by have := h9 r c; have := hne r c; omega⟩ : Fin 9)) := by
    intro c c' he
    simp only [Fin.mk.injEq] at he
    have h1 := hne r c
    have h2 := hne r c'
    exact hinj c c' (by omega)
  obtain ⟨c, hc⟩ := Finite.injective_iff_surjective.mp hfinj ⟨d - 1, by omega⟩
  simp only [Fin.mk.injEq] at hc
  have hbc : b r c = d := by have := hne r c; omega
  exact ⟨c, hbc, fun y hy => hinj y c (hy.trans hbc.symm)⟩

/-- A full, consistent, in-range board has each digit 1..9 exactly once
in every column. -/
theorem colOnce_of_full (b : Board) (hne : noEmpty b) (hcons : consistent b)
    (h9 : boardLe9 b) (c : Fin 9) (d : Nat) (hd1 : 1 ≤ d) (hd9 : d ≤ 9) :
    colOnce b c d := by
  have hinj : ∀ r r' : Fin 9, b r c = b r' c → r = r' := by
    intro r r' he
    by_contra hrr
    have hcf := (is_valid_iff b (b r c) (r, c)).mp (hcons r c (hne r c))
    exact hcf (r', c) (fun hh => hrr (congrArg Prod.fst hh).symm)
      (Or.inr (Or.inl rfl)) he.symm
  have hfinj : Function.Injective
      (fun r : Fin 9 =>
        (⟨b r c - 1, by have := h9 r c; have := hne r c; omega⟩ : Fin 9)) := by
    intro r r' he
    simp only [Fin.mk.injEq] at he
    have h1 := hne r c
    have h2 := hne r' c
    exact hinj r r' (by omega)
  obtain ⟨r, hr⟩ := Finite.injective_iff_surjective.mp hfinj ⟨d - 1, by omega⟩
  simp only [Fin.mk.injEq] at hr
  have hbc : b r c = d := by have := hne r c; omega
  exact ⟨r, hbc, fun y hy => hinj y r (hy.trans hbc.symm)⟩

/-- The offsets inside one box map injectively to positions. -/
theorem boxIdx_inj (p : Fin 3 × Fin 3) (q q' : Fin 3 × Fin 3)
    (h : boxIdx p q = boxIdx p q') : q = q' := by
  have h1 : p.1.val * 3 + q.1.val = p.1.val * 3 + q'.1.val :=
    congrArg (fun z : Fin 9 × Fin 9 => z.1.val) h
  have h2 : p.2.val * 3 + q.2.val = p.2.val * 3 + q'.2.val :=
    congrArg (fun z : Fin 9 × Fin 9 => z.2.val) h
  exact Prod.ext (Fin.ext (by omega)) (Fin.ext (by omega))

/-- Any two distinct offsets of box p give same-box positions. -/
theorem boxIdx_sameBox (p : Fin 3 × Fin 3) (q q' : Fin 3 × Fin 3) :
    sameBox (boxIdx p q') (boxIdx p q) := by
  have hq1 := q.1.isLt
  have hq2 := q.2.isLt
  have hq3 := q'.1.isLt
  have hq4 := q'.2.isLt
  constructor
  · show (p.1.val * 3 + q'.1.val) / 3 = (p.1.val * 3 + q.1.val) / 3
    omega
  · show (p.2.val * 3 + q'.2.val) / 3 = (p.2.val * 3 + q.2.val) / 3
    omega

/-- A full, consistent, in-range board has each digit 1..9 exactly once
in every 3x3 box. -/
theorem boxOnce_of_full (b : Board) (hne : noEmpty b) (hcons : consistent b)
    (h9 : boardLe9 b) (p : Fin 3 × Fin 3) (d : Nat) (hd1 : 1 ≤ d) (hd9 : d ≤ 9) :
    boxOnce b p d := by
  have hinj : ∀ q q' : Fin 3 × Fin 3,
      b (boxIdx p q).1 (boxIdx p q).2 = b (boxIdx p q').1 (boxIdx p q').2 →
      q = q' := by
    intro q q' he
    by_contra hqq
    have h0 := hne (boxIdx p q).1 (boxIdx p q).2
    have hcf := (is_valid_iff b (b (boxIdx p q).1 (boxIdx p q).2)
      ((boxIdx p q).1, (boxIdx p q).2)).mp ?_
    · refine hcf ((boxIdx p q').1, (boxIdx p q').2) ?_ ?_ he.symm
      · intro hh
        apply hqq
        refine (boxIdx_inj p q' q ?_).symm
        have hx : boxIdx p q' = ((boxIdx p q').1, (boxIdx p q').2) := rfl
        rw [hx, hh]
      · exact Or.inr (Or.inr (boxIdx_sameBox p q q'))
    · exact hcons (boxIdx p q).1 (boxIdx p q).2 h0
  have hfinj : Function.Injective
      (fun q : Fin 3 × Fin 3 =>
        (⟨b (boxIdx p q).1 (boxIdx p q).2 - 1, by
            have := h9 (boxIdx p q).1 (boxIdx p q).2
            have := hne (boxIdx p q).1 (boxIdx p q).2
            omega⟩ : Fin 9)) := by
    intro q q' he
    simp only [Fin.mk.injEq] at he
    have h1 := hne (boxIdx p q).1 (boxIdx p q).2
    have h2 := hne (boxIdx p q').1 (boxIdx p q').2
    exact hinj q q' (by omega)
  have hbij := (Fintype.bijective_iff_injective_and_card _).mpr
    ⟨hfinj, by simp⟩
  obtain ⟨q, hq⟩ := hbij.surjective ⟨d - 1, by omega⟩
  simp only [Fin.mk.injEq] at hq
  have hbc : b (boxIdx p q).1 (boxIdx p q).2 = d := by
    have := hne (boxIdx p q).1 (boxIdx p q).2
    omega
  exact ⟨q, hbc, fun y hy => hinj y q (hy.trans hbc.symm)⟩

/-- Claim C2 (amended): for every 9x9 grid with entries in 0..9 whose
non-zero cells already pass the source's validity check (no duplicate in
any row, column or box), if solve_sudoku_dfs returns True then the
resulting grid is fully populated and every row, column and 3x3 box
contains each digit 1..9 exactly once.  The hypotheses are forced: on a
grid whose filled cells already conflict, the solver can report success
with an invalid grid (see sudoku_success_needs_consistency). -/
theorem sudoku_success_valid (b : Board) (hcons : consistent b)
    (h9 : boardLe9 b) (hs : (solve_sudoku_dfs b).1 = true) :
    noEmpty (solve_sudoku_dfs b).2 ∧
      (∀ r : Fin 9, ∀ d : Nat, 1 ≤ d → d ≤ 9 →
        rowOnce (solve_sudoku_dfs b).2 r d) ∧
      (∀ c : Fin 9, ∀ d : Nat, 1 ≤ d → d ≤ 9 →
        colOnce (solve_sudoku_dfs b).2 c d) ∧
      (∀ p : Fin 3 × Fin 3, ∀ d : Nat, 1 ≤ d → d ≤ 9 →
        boxOnce (solve_sudoku_dfs b).2 p d) := by
  obtain ⟨hne, hc2, h92⟩ := solveAux_true_spec 82 b hcons h9 hs
  exact ⟨hne,
    fun r d h1 h2 => rowOnce_of_full _ hne hc2 h92 r d h1 h2,
    fun c d h1 h2 => colOnce_of_full _ hne hc2 h92 c d h1 h2,
    fun p d h1 h2 => boxOnce_of_full _ hne hc2 h92 p d h1 h2⟩

/-- The all-ones board: every cell filled with 1. -/
def allOnes : Board := fun _ _ => 1

/-- Claim C2 as literally stated is false: on the all-ones grid (full,
so find_empty reports none) the solver returns True immediately, yet
row 0 of the resulting grid does not contain the digit 2 exactly once. -/
theorem sudoku_success_needs_consistency :
    (solve_sudoku_dfs allOnes).1 = true ∧
      ¬ rowOnce (solve_sudoku_dfs allOnes).2 0 2 := by
  constructor
  · decide
  · intro h
    obtain ⟨c, hc, -⟩ := h
    have hall : ∀ c : Fin 9, (solve_sudoku_dfs allOnes).2 0 c = 1 := by decide
    have := hall c
    omega

instance (b : Board) : Decidable (consistent b) :=
  decidable_of_iff
    (∀ r c : Fin 9, b r c ≠ 0 → is_valid_sudoku_move b (b r c) (r, c) = true)
    Iff.rfl

instance (b : Board) : Decidable (boardLe9 b) :=
  decidable_of_iff (∀ r c : Fin 9, b r c ≤ 9) Iff.rfl

/-- A valid completed Sudoku grid (note: baseRows itself cannot be used
here: with the seeded 0 at row 6 column 7, the digit 6 is forced by row
6 but blocked by column 7, which already holds a 6 at row 1, so the
repository's base grid is in fact unsolvable). -/
def solvedRows : List (List Nat) :=
  [[1, 2, 3, 4, 5, 6, 7, 8, 9],
   [4, 5, 6, 7, 8, 9, 1, 2, 3],
   [7, 8, 9, 1, 2, 3, 4, 5, 6],
   [2, 3, 1, 5, 6, 4, 8, 9, 7],
   [5, 6, 4, 8, 9, 7, 2, 3, 1],
   [8, 9, 7, 2, 3, 1, 5, 6, 4],
   [3, 1, 2, 6, 4, 5, 9, 7, 8],
   [6, 4, 5, 9, 7, 8, 3, 1, 2],
   [9, 7, 8, 3, 1, 2, 6, 4, 5]]

/-- solvedRows as a Board. -/
def solvedBoard : Board :=
  fun r c => (solvedRows.getD r.val []).getD c.val 0

/-- solvedBoard with one hole punched at (0, 0); the solver must fill
it (with 1) and report success. -/
def holedBoard : Board := setCell solvedBoard 0 0 0

/-- Witness for sudoku_success_valid at the concrete one-hole board. -/
theorem sudoku_success_valid_witness :
    rowOnce (solve_sudoku_dfs holedBoard).2 0 3 :=
  (sudoku_success_valid holedBoard (by decide) (by decide)
    (by decide)).2.1 0 3 (by decide) (by decide)

/-- Zeroing a non-zero cell raises the zero count by one. -/
theorem zeroCount_setCell (b : Board) (p : Fin 9 × Fin 9)
    (h : b p.1 p.2 ≠ 0) :
    zeroCount (setCell b p.1 p.2 0) = zeroCount b + 1 := by
  have hset : (Finset.univ.filter fun q : Fin 9 × Fin 9 =>
        setCell b p.1 p.2 0 q.1 q.2 = 0)
      = insert p (Finset.univ.filter fun q : Fin 9 × Fin 9 => b q.1 q.2 = 0) := by
    ext q
    simp only [Finset.mem_filter, Finset.mem_insert, Finset.mem_univ, true_and]
    by_cases hqp : q = p
    · subst hqp
      simp [setCell_same b q.1 q.2 0]
    · rw [setCell_other b p.1 p.2 0 q.1 q.2 (by simpa using hqp)]
      simp [hqp]
  show (Finset.univ.filter fun q : Fin 9 × Fin 9 =>
      setCell b p.1 p.2 0 q.1 q.2 = 0).card = _
  rw [hset, Finset.card_insert_of_not_mem (by simp [h])]
  rfl

/-- Zeroing an untouched non-zero cell raises the count of cells that
differ from base_board by one. -/
theorem diffCount_setCell (b : Board) (p : Fin 9 × Fin 9)
    (heq : b p.1 p.2 = base_board p.1 p.2) (h : b p.1 p.2 ≠ 0) :
    diffCount (setCell b p.1 p.2 0) base_board = diffCount b base_board + 1 := by
  have hset : (Finset.univ.filter fun q : Fin 9 × Fin 9 =>
        setCell b p.1 p.2 0 q.1 q.2 ≠ base_board q.1 q.2)
      = insert p (Finset.univ.filter fun q : Fin 9 × Fin 9 =>
          b q.1 q.2 ≠ base_board q.1 q.2) := by
    ext q
    simp only [Finset.mem_filter, Finset.mem_insert, Finset.mem_univ, true_and]
    by_cases hqp : q = p
    · subst hqp
      rw [setCell_same b q.1 q.2 0]
      simp only [true_or, iff_true]
      rw [← heq]
      omega
    · rw [setCell_other b p.1 p.2 0 q.1 q.2 (by simpa using hqp)]
      simp [hqp]
  show (Finset.univ.filter fun q : Fin 9 × Fin 9 =>
      setCell b p.1 p.2 0 q.1 q.2 ≠ base_board q.1 q.2).card = _
  rw [hset, Finset.card_insert_of_not_mem (by simp [heq])]
  rfl

/-- The zero count of any board is at most 81. -/
theorem zeroCount_le_81 (b : Board) : zeroCount b ≤ 81 := by
  refine le_trans (Finset.card_filter_le _ _) ?_
  simp

/-- Invariant of the removal loop: if the running board differs from
base_board on exactly `removed` cells, all of them zeroed from non-zero
base cells, and holds removed+1 zeros, then any board the loop returns
differs from base_board on exactly `difficulty` cells (all zeroed from
non-zero base cells) and holds difficulty+1 zeros. -/
theorem removeLoop_spec (difficulty : Nat) (oracle : Nat → Fin 9 × Fin 9) :
    ∀ (fuel k removed : Nat) (b res : Board),
      removed ≤ difficulty →
      diffCount b base_board = removed →
      (∀ p : Fin 9 × Fin 9, b p.1 p.2 ≠ base_board p.1 p.2 →
        base_board p.1 p.2 ≠ 0 ∧ b p.1 p.2 = 0) →
      zeroCount b = removed + 1 →
      removeLoop difficulty oracle fuel k removed b = some res →
      diffCount res base_board = difficulty ∧
        (∀ p : Fin 9 × Fin 9, res p.1 p.2 ≠ base_board p.1 p.2 →
          base_board p.1 p.2 ≠ 0 ∧ res p.1 p.2 = 0) ∧
        zeroCount res = difficulty + 1 := by
  intro fuel
  induction fuel with
  | zero =>
    intro k removed b res _ _ _ _ hrun
    exact absurd hrun (by simp [removeLoop])
  | succ f ih =>
    intro k removed b res hle hdiff hprop hzero hrun
    by_cases hlt : removed < difficulty
    · simp only [removeLoop, if_pos hlt] at hrun
      by_cases hnz : b (oracle k).1 (oracle k).2 ≠ 0
      · rw [if_pos hnz] at hrun
        have heq : b (oracle k).1 (oracle k).2 =
            base_board (oracle k).1 (oracle k).2 := by
          by_contra hne
          exact hnz (hprop (oracle k) hne).2
        refine ih (k + 1) (removed + 1) _ res (by omega) ?_ ?_ ?_ hrun
        · rw [diffCount_setCell b (oracle k) heq hnz, hdiff]
        · intro p hp
          by_cases hpo : p = oracle k
          · constructor
            · rw [hpo, ← heq]; exact hnz
            · rw [hpo]; exact setCell_same b (oracle k).1 (oracle k).2 0
          · rw [setCell_other b (oracle k).1 (oracle k).2 0 p.1 p.2
              (by simpa using hpo)] at hp ⊢
            exact hprop p hp
        · rw [zeroCount_setCell b (oracle k) hnz, hzero]
      · rw [if_neg hnz] at hrun
        exact ih (k + 1) removed b res hle hdiff hprop hzero hrun
    · simp only [removeLoop, if_neg hlt] at hrun
      obtain rfl : b = res := Option.some.inj hrun
      have : removed = difficulty := by omega
      subst this
      exact ⟨hdiff, hprop, hzero⟩

/-- With difficulty 81 the loop can never exit: the removal counter
always equals the zero count minus one, the zero count is at most 81,
so cells_removed stays at most 80 and the loop guard 
cells_removed < 81 never fails. -/
theorem removeLoop_81_diverges (oracle : Nat → Fin 9 × Fin 9) :
    ∀ (fuel k removed : Nat) (b : Board),
      zeroCount b = removed + 1 →
      removeLoop 81 oracle fuel k removed b = none := by
  intro fuel
  induction fuel with
  | zero => intro _ _ _ _; rfl
  | succ f ih =>
    intro k removed b hzero
    have hlt : removed < 81 := by
      have := zeroCount_le_81 b
      omega
    simp only [removeLoop, if_pos hlt]
    by_cases hnz : b (oracle k).1 (oracle k).2 ≠ 0
    · rw [if_pos hnz]
      exact ih (k + 1) (removed + 1) _ (by rw [zeroCount_setCell b (oracle k) hnz, hzero])
    · rw [if_neg hnz]
      exact ih (k + 1) removed b hzero

/-- Claim C4 (amended): whenever the removal loop terminates, the
returned grid is base_board with exactly `difficulty` distinct formerly
non-zero cells zeroed (no cell zeroed twice), hence it holds exactly
difficulty + 1 zeros, because base_board already ships one zero at row
6, column 7; and for difficulty 81 the loop never terminates (base_board
has only 80 non-zero cells to remove), for every fuel and every outcome
of the random draws. -/
theorem generate_sudoku_removal_spec :
    (∀ (difficulty : Nat) (oracle : Nat → Fin 9 × Fin 9) (fuel : Nat)
        (res : Board),
        generate_sudoku_puzzle difficulty oracle fuel = some res →
        diffCount res base_board = difficulty ∧
          (∀ p : Fin 9 × Fin 9, res p.1 p.2 ≠ base_board p.1 p.2 →
            base_board p.1 p.2 ≠ 0 ∧ res p.1 p.2 = 0) ∧
          zeroCount res = difficulty + 1)
    ∧ ∀ (oracle : Nat → Fin 9 × Fin 9) (fuel : Nat),
        generate_sudoku_puzzle 81 oracle fuel = none := by
  constructor
  · intro difficulty oracle fuel res hrun
    refine removeLoop_spec difficulty oracle fuel 0 0 base_board res
      (by omega) (by simp [diffCount]) (by simp) (by decide) hrun
  · intro oracle fuel
    exact removeLoop_81_diverges oracle fuel 0 0 base_board (by decide)

/-- Witness for generate_sudoku_removal_spec: removing one cell with an
oracle that always draws (0, 0) yields base_board with cell (0, 0)
zeroed, which holds exactly two zeros. -/
theorem generate_sudoku_removal_spec_witness :
    zeroCount (setCell base_board 0 0 0) = 1 + 1 :=
  (generate_sudoku_removal_spec.1 1 (fun _ => (0, 0)) 2
    (setCell base_board 0 0 0) rfl).2.2

/-- Claim C4 as literally stated is false at difficulty 0: the loop
body never runs, the returned grid is base_board itself, and base_board
contains one zero (the seeded hole), not zero zeros. -/
theorem generate_sudoku_removal_cex :
    generate_sudoku_puzzle 0 (fun _ => (0, 0)) 1 = some base_board ∧
      zeroCount base_board ≠ 0 :=
  ⟨rfl, by decide⟩

/- ======================================================================
   Maze solver (src/app.py lines 294-359)
   ====================================================================== -/

/-- A maze position (row, col); Python uses unconstrained int tuples. -/
abbrev MazePos := Int × Int

/-- A maze grid, list of rows; cell value 1 = wall, 0 = path. -/
abbrev Maze := List (List Nat)

/-- Cell read maze[r][c].  The solver only reads cells after its
0 <= nr < rows and 0 <= nc < cols guards; absent cells (ragged rows)
read as wall, so a position only ever counts as path if the cell truly
exists and holds 0. -/
def mazeCell (maze : Maze) (r c : Int) : Nat :=
  (maze.getD r.toNat []).getD c.toNat 1

/-- The neighbor offsets explored by the solver, in source order:
right, left, down, up. -/
def stepDirs : List (Int × Int) := [(0, 1), (0, -1), (1, 0), (-1, 0)]

/-- A stack frame: (current position, path taken to get here). -/
abbrev MazeFrame := MazePos × List MazePos

/-- The frames Python appends for the four neighbors of (r, c) that are
in bounds, path cells, and unvisited, in stepDirs order. -/
def neighborFrames (maze : Maze) (rows cols : Nat) (visited : List MazePos)
    (r c : Int) (path : List MazePos) : List MazeFrame :=
  stepDirs.filterMap fun d =>
    if 0 ≤ r + d.1 ∧ r + d.1 < (rows : Int) ∧ 0 ≤ c + d.2 ∧
        c + d.2 < (cols : Int) ∧ mazeCell maze (r + d.1) (c + d.2) = 0 ∧
        (r + d.1, c + d.2) ∉ visited then
      some ((r + d.1, c + d.2), path ++ [(r + d.1, c + d.2)])
    else none

/-- The while loop of solve_maze_dfs.  The stack is a list whose head
is the top (Python appends to and pops from the list end, so the frames
Python appends in stepDirs order sit reversed on top).  Pop the top
frame; if its position is the goal return its path immediately; skip
frames whose position is already visited; otherwise mark the position
visited and push its neighbor frames.  One unit of fuel per iteration;
none covers both no-path and fuel exhaustion, and no theorem below
relies on the loop running to completion. -/
def mazeLoop (maze : Maze) (rows cols : Nat) (endPos : MazePos) :
    Nat → List MazeFrame → List MazePos → Option (List MazePos)
  | 0, _, _ => none
  | _ + 1, [], _ => none
  | fuel + 1, ((r, c), path) :: stack, visited =>
      if (r, c) = endPos then some path
      else if (r, c) ∈ visited then
        mazeLoop maze rows cols endPos fuel stack visited
      else
        mazeLoop maze rows cols endPos fuel
          ((neighborFrames maze rows cols ((r, c) :: visited) r c path).reverse
            ++ stack)
          ((r, c) :: visited)

/-- solve_maze_dfs from src/app.py.  Python evaluates rows, cols =
len(maze), len(maze[0]) before the loop; on a maze with no rows,
maze[0] raises an IndexError, modelled as the error result.  Otherwise
the loop starts from the stack [(start, [start])] and an empty visited
set; the fuel is a generous bound on the iteration count. -/
def solve_maze_dfs (maze : Maze) (start endPos : MazePos) :
    Except String (Option (List MazePos)) :=
  match maze with
  | [] => Except.error "IndexError: maze[0]"
  | row0 :: _ =>
      Except.ok (mazeLoop maze maze.length row0.length endPos
        (4 * (maze.length * row0.length + 2) + 2) [(start, [start])] [])

/-- p is a PATH cell of the grid: in bounds (with the column bound
len(maze[0]) that the source uses) and holding cell value 0. -/
def isPathCell (maze : Maze) (p : MazePos) : Prop :=
  0 ≤ p.1 ∧ p.1 < (maze.length : Int) ∧ 0 ≤ p.2 ∧
    p.2 < (((maze.headD []).length : Nat) : Int) ∧ mazeCell maze p.1 p.2 = 0

/-- One orthogonal grid step (4-adjacency). -/
def adjacentPos (p q : MazePos) : Prop :=
  ∃ d ∈ stepDirs, q = (p.1 + d.1, p.2 + d.2)

/-- Invariant of every stack frame: its path starts at start, ends at
the frame's position, repeats no position, walks in unit steps, visits
only PATH cells after the start, and all but its final position are
already in the visited set. -/
def frameOK (maze : Maze) (start : MazePos) (visited : List MazePos)
    (f : MazeFrame) : Prop :=
  f.2.head? = some start ∧ f.2.getLast? = some f.1 ∧ f.2.Nodup ∧
    List.Chain' adjacentPos f.2 ∧ (∀ q ∈ f.2.tail, isPathCell maze q) ∧
    ∀ q ∈ f.2.dropLast, q ∈ visited

/-- Splitting membership in a list at its last element. -/
theorem mem_split_last {α : Type} {l : List α} {x q : α}
    (hl : l.getLast? = some x) (hq : q ∈ l) : q ∈ l.dropLast ∨ q = x := by
  have hne : l ≠ [] := by
    intro h
    rw [h] at hl
    simp at hl
  have hsplit := List.dropLast_append_getLast hne
  rw [← hsplit] at hq
  rcases List.mem_append.mp hq with h | h
  · exact Or.inl h
  · have hx : l.getLast hne = x := by
      have := List.getLast?_eq_getLast l hne
      rw [this] at hl
      exact Option.some.inj hl
    simp only [List.mem_singleton] at h
    exact Or.inr (h.trans hx)

/-- frameOK is monotone in the visited set. -/
theorem frameOK_mono (maze : Maze) (start : MazePos)
    (visited visited2 : List MazePos) (hsub : ∀ q ∈ visited, q ∈ visited2)
    (f : MazeFrame) (hf : frameOK maze start visited f) :
    frameOK maze start visited2 f :=
  ⟨hf.1, hf.2.1, hf.2.2.1, hf.2.2.2.1, hf.2.2.2.2.1,
    fun q hq => hsub q (hf.2.2.2.2.2 q hq)⟩

/-- Characterization of the frames produced for neighbors: each comes
from one direction offset whose target is in bounds, a path cell, and
unvisited, and extends the current path by that target. -/
theorem mem_neighborFrames (maze : Maze) (rows cols : Nat)
    (visited : List MazePos) (r c : Int) (path : List MazePos)
    (f : MazeFrame) (hf : f ∈ neighborFrames maze rows cols visited r c path) :
    ∃ d ∈ stepDirs,
      (0 ≤ r + d.1 ∧ r + d.1 < (rows : Int) ∧ 0 ≤ c + d.2 ∧
        c + d.2 < (cols : Int) ∧ mazeCell maze (r + d.1) (c + d.2) = 0 ∧
        (r + d.1, c + d.2) ∉ visited) ∧
      f = ((r + d.1, c + d.2), path ++ [(r + d.1, c + d.2)]) := by
  simp only [neighborFrames, List.mem_filterMap] at hf
  obtain ⟨d, hd, hsome⟩ := hf
  refine ⟨d, hd, ?_⟩
  by_cases hg : 0 ≤ r + d.1 ∧ r + d.1 < (rows : Int) ∧ 0 ≤ c + d.2 ∧
      c + d.2 < (cols : Int) ∧ mazeCell maze (r + d.1) (c + d.2) = 0 ∧
      (r + d.1, c + d.2) ∉ visited
  · rw [if_pos hg] at hsome
    exact ⟨hg, (Option.some.inj hsome).symm⟩
  · rw [if_neg hg] at hsome
    exact absurd hsome (by simp)

/-- Soundness of the search loop: any path it returns starts at start,
ends at the goal, repeats no position, walks in unit steps, and visits
only PATH cells after its first position, provided every stack frame
satisfies the frame invariant. -/
theorem mazeLoop_sound (maze : Maze) (start endPos : MazePos) :
    ∀ (fuel : Nat) (stack : List MazeFrame) (visited : List MazePos)
      (path : List MazePos),
      (∀ f ∈ stack, frameOK maze start visited f) →
      mazeLoop maze maze.length (maze.headD []).length endPos fuel stack
        visited = some path →
      path.head? = some start ∧ path.getLast? = some endPos ∧ path.Nodup ∧
        List.Chain' adjacentPos path ∧ ∀ q ∈ path.tail, isPathCell maze q := by
  intro fuel
  induction fuel with
  | zero =>
    intro stack visited path _ hrun
    exact absurd hrun (by simp [mazeLoop])
  | succ fl ih =>
    intro stack visited path hinv hrun
    rcases stack with _ | ⟨⟨⟨r, c⟩, p0⟩, rest⟩
    · exact absurd hrun (by simp [mazeLoop])
    · have hfr := hinv ((r, c), p0) (List.mem_cons_self _ _)
      obtain ⟨hhead, hlast, hnodup, hchain, htail, hdrop⟩ := hfr
      by_cases hend : ((r, c) : MazePos) = endPos
      · simp only [mazeLoop, if_pos hend] at hrun
        obtain rfl : p0 = path := Option.some.inj hrun
        rw [hend] at hlast
        exact ⟨hhead, hlast, hnodup, hchain, htail⟩
      · by_cases hvis : ((r, c) : MazePos) ∈ visited
        · simp only [mazeLoop, if_neg hend, if_pos hvis] at hrun
          exact ih rest visited path
            (fun f hf => hinv f (List.mem_cons_of_mem _ hf)) hrun
        · simp only [mazeLoop, if_neg hend, if_neg hvis] at hrun
          refine ih _ _ path ?_ hrun
          intro f hf
          rcases List.mem_append.mp hf with hf | hf
          · have hf2 := List.mem_reverse.mp hf
            obtain ⟨d, hd, hg, rfl⟩ :=
              mem_neighborFrames maze maze.length (maze.headD []).length
                ((r, c) :: visited) r c p0 f hf2
            obtain ⟨hg1, hg2, hg3, hg4, hg5, hg6⟩ := hg
            have hp0ne : p0 ≠ [] := by
              intro h
              rw [h] at hhead
              simp at hhead
            have hnotin : ((r + d.1, c + d.2) : MazePos) ∉ p0 := by
              intro hin
              rcases mem_split_last hlast hin with h | h
              · exact hg6 (List.mem_cons_of_mem _ (hdrop _ h))
              · exact hg6 (h ▸ List.mem_cons_self _ _)
            refine ⟨?_, ?_, ?_, ?_, ?_, ?_⟩
            · show (p0 ++ [((r + d.1, c + d.2) : MazePos)]).head? = some start
              cases p0 with
              | nil => exact absurd rfl hp0ne
              | cons a t => simpa using hhead
            · exact List.getLast?_concat p0
            · show (p0 ++ [((r + d.1, c + d.2) : MazePos)]).Nodup
              rw [List.nodup_append]
              refine ⟨hnodup, List.nodup_singleton _, ?_⟩
              intro a ha hb
              simp only [List.mem_singleton] at hb
              subst hb
              exact hnotin ha
            · show List.Chain' adjacentPos (p0 ++ [((r + d.1, c + d.2) : MazePos)])
              rw [List.chain'_append]
              refine ⟨hchain, List.chain'_singleton _, ?_⟩
              intro y hy z hz
              simp only [List.head?_cons, Option.mem_def, Option.some.injEq] at hz
              subst hz
              have hy2 : y = ((r, c) : MazePos) := by
                rw [hlast] at hy
                exact (Option.some.inj (Option.mem_def.mp hy)).symm
              subst hy2
              exact ⟨d, hd, rfl⟩
            · show ∀ q ∈ (p0 ++ [((r + d.1, c + d.2) : MazePos)]).tail,
                isPathCell maze q
              intro q hq
              cases p0 with
              | nil => exact absurd rfl hp0ne
              | cons a t =>
                simp only [List.cons_append, List.tail_cons] at hq
                rcases List.mem_append.mp hq with h | h
                · exact htail q h
                · simp only [List.mem_singleton] at h
                  subst h
                  exact ⟨hg1, hg2, hg3, hg4, hg5⟩
            · show ∀ q ∈ (p0 ++ [((r + d.1, c + d.2) : MazePos)]).dropLast,
                q ∈ ((r, c) : MazePos) :: visited
              rw [List.dropLast_concat]
              intro q hq
              rcases mem_split_last hlast hq with h | h
              · exact List.mem_cons_of_mem _ (hdrop _ h)
              · exact h ▸ List.mem_cons_self _ _
          · exact frameOK_mono maze start visited (((r, c) : MazePos) :: visited)
              (fun q hq => List.mem_cons_of_mem _ hq) f
              (hinv f (List.mem_cons_of_mem _ hf))

/-- Claim C3 (amended): whenever solve_maze_dfs returns a path, the
path's first element is start, its last is end, consecutive positions
are 4-adjacent, no position repeats, and every position except possibly
the first (the start cell, which the source never checks) is an
in-bounds PATH cell.  The exception is forced: the start cell is pushed
unchecked, see maze_path_start_wall_cex. -/
theorem maze_path_sound (maze : Maze) (start endPos : MazePos)
    (path : List MazePos)
    (h : solve_maze_dfs maze start endPos = Except.ok (some path)) :
    path.head? = some start ∧ path.getLast? = some endPos ∧ path.Nodup ∧
      List.Chain' adjacentPos path ∧ ∀ q ∈ path.tail, isPathCell maze q := by
  cases maze with
  | nil => simp [solve_maze_dfs] at h
  | cons row0 rest =>
    simp only [solve_maze_dfs, Except.ok.injEq] at h
    refine mazeLoop_sound (row0 :: rest) start endPos _ _ _ path ?_ h
    intro f hf
    simp only [List.mem_singleton] at hf
    subst hf
    refine ⟨rfl, rfl, List.nodup_singleton _, List.chain'_singleton _, ?_, ?_⟩
    · intro q hq
      simp at hq
    · intro q hq
      simp at hq

/-- Claim C3 as literally stated is false: on the all-wall 1x1 maze
with start = end = (0,0), the solver returns the path [(0,0)] whose
single position is a WALL cell, because the start cell's type is never
checked. -/
theorem maze_path_start_wall_cex :
    solve_maze_dfs [[1]] (0, 0) (0, 0) = Except.ok (some [(0, 0)]) ∧
      mazeCell [[1]] 0 0 = 1 ∧ ¬ isPathCell [[1]] (0, 0) := by
  refine ⟨rfl, rfl, ?_⟩
  intro h
  exact absurd h.2.2.2.2 (by decide)

/-- Witness for maze_path_sound on the 1x2 all-path maze, start (0,0),
end (0,1): the solver returns [(0,0), (0,1)] and all properties hold. -/
theorem maze_path_sound_witness :
    ([((0 : Int), (0 : Int)), (0, 1)] : List MazePos).head? = some (0, 0) ∧
      ([((0 : Int), (0 : Int)), (0, 1)] : List MazePos).getLast? = some (0, 1) ∧
      ([((0 : Int), (0 : Int)), (0, 1)] : List MazePos).Nodup ∧
      List.Chain' adjacentPos [((0 : Int), (0 : Int)), (0, 1)] ∧
      ∀ q ∈ ([((0 : Int), (0 : Int)), (0, 1)] : List MazePos).tail,
        isPathCell [[0, 0]] q :=
  maze_path_sound [[0, 0]] (0, 0) (0, 1) [(0, 0), (0, 1)] rfl

/-- Claim C9 (amended): for every maze with at least one row and every
position p (inside or outside the grid, wall or path), solving with
start = end = p returns the one-element path [p] immediately: the first
popped frame already carries the goal position.  The nonempty-maze
hypothesis is forced: on a maze with no rows, Python's
rows, cols = len(maze), len(maze[0]) raises an IndexError before the
loop starts, see maze_empty_raises_cex. -/
theorem maze_immediate_self (maze : Maze) (p : MazePos) (hne : maze ≠ []) :
    solve_maze_dfs maze p p = Except.ok (some [p]) := by
  cases maze with
  | nil => exact absurd rfl hne
  | cons row0 rest =>
    obtain ⟨pr, pc⟩ := p
    show Except.ok (mazeLoop (row0 :: rest) (row0 :: rest).length row0.length
      (pr, pc) (4 * ((row0 :: rest).length * row0.length + 2) + 2)
      [((pr, pc), [(pr, pc)])] []) = Except.ok (some [(pr, pc)])
    have hf : 4 * ((row0 :: rest).length * row0.length + 2) + 2 =
        (4 * ((row0 :: rest).length * row0.length + 2) + 1) + 1 := rfl
    rw [hf]
    simp [mazeLoop]

/-- Claim C9 as literally stated is false on the empty maze: Python
raises an IndexError at rows, cols = len(maze), len(maze[0]) before the
start = end shortcut can fire. -/
theorem maze_empty_raises_cex :
    solve_maze_dfs [] (1, 1) (1, 1) = Except.error "IndexError: maze[0]" ∧
      solve_maze_dfs [] (1, 1) (1, 1) ≠ Except.ok (some [(1, 1)]) :=
  ⟨rfl, by simp [solve_maze_dfs]⟩

/-- Witness for maze_immediate_self: a wall-only maze and a position
far outside the grid still return the one-element path. -/
theorem maze_immediate_self_witness :
    solve_maze_dfs [[1]] (5, -3) (5, -3) = Except.ok (some [(5, -3)]) :=
  maze_immediate_self [[1]] (5, -3) (by simp)

/- ======================================================================
   Maze generator (src/app.py lines 260-288)
   ====================================================================== -/

/-- Write maze[y][x] = v.  All generator writes are at non-negative
in-range indices (proved below); List.set leaves the grid unchanged on
out-of-range indices. -/
def setMazeCell (m : Maze) (y x : Int) (v : Nat) : Maze :=
  m.set y.toNat ((m.getD y.toNat []).set x.toNat v)

/-- The carver's direction offsets (dx, dy), source order: up, down,
left, right, two steps each. -/
def carveDirs : List (Int × Int) := [(0, -2), (0, 2), (-2, 0), (2, 0)]

/-- The outcome of the k-th random.shuffle of the direction list: the
oracle's k-th value when it is a permutation of carveDirs (every
outcome of random.shuffle is one), and the unshuffled list otherwise. -/
def shuffleOf (oracle : Nat → List (Int × Int)) (k : Nat) : List (Int × Int) :=
  if (oracle k).Perm carveDirs then oracle k else carveDirs

/-- The body of carve_path after the current cell (cx, cy) has been
carved: walk the shuffled direction list; for each neighbor two steps
away that is in bounds and still wall, carve the wall cell in between,
carve the neighbor, recurse into the neighbor (with a fresh shuffle),
then continue with the remaining directions on the updated maze.  k is
the index of the next unused shuffle draw and is threaded through; one
fuel unit per call (generate_maze supplies fuel larger than the Python
carver's recursion depth). -/
def carveStep (width height : Nat) (oracle : Nat → List (Int × Int)) :
    Nat → Maze → Int → Int → List (Int × Int) → Nat → Maze × Nat
  | 0, m, _, _, _, k => (m, k)
  | _ + 1, m, _, _, [], k => (m, k)
  | fuel + 1, m, cx, cy, d :: rest, k =>
      if 0 ≤ cx + d.1 ∧ cx + d.1 < (width : Int) ∧ 0 ≤ cy + d.2 ∧
          cy + d.2 < (height : Int) ∧ mazeCell m (cy + d.2) (cx + d.1) = 1 then
        let m1 := setMazeCell m (cy + d.2 / 2) (cx + d.1 / 2) 0
        let m2 := setMazeCell m1 (cy + d.2) (cx + d.1) 0
        let res := carveStep width height oracle fuel m2 (cx + d.1) (cy + d.2)
          (shuffleOf oracle k) (k + 1)
        carveStep width height oracle fuel res.1 cx cy rest res.2
      else
        carveStep width height oracle fuel m cx cy rest k

/-- carve_path(cx, cy): carve the current cell, then walk its shuffled
direction list. -/
def carve_path (width height : Nat) (oracle : Nat → List (Int × Int))
    (fuel : Nat) (m : Maze) (cx cy : Int) (k : Nat) : Maze × Nat :=
  carveStep width height oracle fuel (setMazeCell m cy cx 0) cx cy
    (shuffleOf oracle k) (k + 1)

/-- The carve's random start coordinate, random.randrange(1, dim, 2):
an odd number in [1, dim); an oracle draw outside that set is mapped to
the least admissible value 1. -/
def oddPick (dim : Nat) (s : Nat) : Nat :=
  if s % 2 = 1 ∧ s < dim then s else 1

/-- generate_maze from src/app.py: start from the all-wall grid, carve
from a random odd-coordinate cell, then force the entry (1,1) and the
exit (height-2, width-2) to PATH.  startW, startH are the random start
draws and oracle supplies the shuffle outcomes. -/
def generate_maze (width height : Nat) (startW startH : Nat)
    (oracle : Nat → List (Int × Int)) : Maze :=
  let m0 : Maze := List.replicate height (List.replicate width 1)
  let m1 := (carve_path width height oracle (5 * width * height + 5) m0
    (oddPick width startW) (oddPick height startH) 0).1
  let m2 := setMazeCell m1 1 1 0
  setMazeCell m2 ((height - 2 : Nat) : Int) ((width - 2 : Nat) : Int) 0

/-- Every cell of the all-wall grid (and any out-of-range read) is 1. -/
theorem mazeCell_replicate (h w : Nat) (y x : Int) :
    mazeCell (List.replicate h (List.replicate w 1)) y x = 1 := by
  unfold mazeCell
  have hrow : (List.replicate h (List.replicate w 1)).getD y.toNat
      ([] : List Nat) = if y.toNat < h then List.replicate w 1 else [] := by
    rw [List.getD_eq_getElem?_getD, List.getElem?_replicate]
    split
    · rfl
    · rfl
  rw [hrow]
  split
  · rw [List.getD_eq_getElem?_getD, List.getElem?_replicate]
    split
    · rfl
    · rfl
  · rfl

/-- Reading a cell other than the one just written is unchanged
(indices compared after the toNat conversion both sides use). -/
theorem mazeCell_setMazeCell_ne (m : Maze) (y x : Int) (v : Nat)
    (y2 x2 : Int) (h : y2.toNat ≠ y.toNat ∨ x2.toNat ≠ x.toNat) :
    mazeCell (setMazeCell m y x v) y2 x2 = mazeCell m y2 x2 := by
  unfold mazeCell setMazeCell
  by_cases hyy : y2.toNat = y.toNat
  · have hx : x2.toNat ≠ x.toNat := by
      rcases h with h | h
      · exact absurd hyy h
      · exact h
    rw [hyy]
    rcases Nat.lt_or_ge y.toNat m.length with hy | hy
    · have hrow : (m.set y.toNat ((m.getD y.toNat []).set x.toNat v)).getD
          y.toNat [] = (m.getD y.toNat []).set x.toNat v := by
        rw [List.getD_eq_getElem?_getD, List.getElem?_set_eq_of_lt _ hy]
        rfl
      rw [hrow, List.getD_eq_getElem?_getD, List.getElem?_set_ne (Ne.symm hx),
        ← List.getD_eq_getElem?_getD]
    · rw [List.set_eq_of_length_le hy]
  · have hrow : (List.set m y.toNat ((m.getD y.toNat []).set x.toNat v)).getD
        y2.toNat ([] : List Nat) = m.getD y2.toNat [] := by
      rw [List.getD_eq_getElem?_getD,
        List.getElem?_set_ne (fun he => hyy he.symm),
        ← List.getD_eq_getElem?_getD]
    rw [hrow]

/-- Every element of a shuffle outcome is one of the four offsets. -/
theorem shuffleOf_mem (oracle : Nat → List (Int × Int)) (k : Nat) :
    ∀ d ∈ shuffleOf oracle k, d ∈ carveDirs := by
  intro d hd
  unfold shuffleOf at hd
  by_cases hp : (oracle k).Perm carveDirs
  · rw [if_pos hp] at hd
    exact hp.mem_iff.mp hd
  · rw [if_neg hp] at hd
    exact hd

/-- The four offsets move by two in one axis and zero in the other. -/
theorem carveDirs_fact (d : Int × Int) (hd : d ∈ carveDirs) :
    d.1 = 0 ∧ (d.2 = -2 ∨ d.2 = 2) ∨ d.2 = 0 ∧ (d.1 = -2 ∨ d.1 = 2) := by
  simp only [carveDirs, List.mem_cons, List.not_mem_nil, or_false] at hd
  rcases hd with h | h | h | h <;> subst h <;> simp

/-- All border cells of the grid (top and bottom rows, first and last
columns) are walls. -/
def bordersWall (width height : Nat) (m : Maze) : Prop :=
  ∀ y x : Nat, y < height → x < width →
    (y = 0 ∨ y = height - 1 ∨ x = 0 ∨ x = width - 1) →
    mazeCell m (y : Int) (x : Int) = 1

/-- Writing strictly inside the border (coordinates in [1, dim-2])
keeps every border cell a wall. -/
theorem bordersWall_set (width height : Nat) (m : Maze)
    (hB : bordersWall width height m) (y x : Int) (v : Nat)
    (hy1 : 1 ≤ y) (hy2 : y ≤ (height : Int) - 2)
    (hx1 : 1 ≤ x) (hx2 : x ≤ (width : Int) - 2) :
    bordersWall width height (setMazeCell m y x v) := by
  intro y2 x2 hy2b hx2b hborder
  rw [mazeCell_setMazeCell_ne]
  · exact hB y2 x2 hy2b hx2b hborder
  · rcases hborder with h | h | h | h
    · subst h; left; omega
    · subst h; left; omega
    · subst h; right; omega
    · subst h; right; omega

/-- The carver only ever writes strictly interior cells: starting from
an odd in-range cell, every between-wall and neighbor write lands in
[1, dim-2] on both axes, so the border stays all wall. -/
theorem carveStep_borders (width height : Nat)
    (oracle : Nat → List (Int × Int))
    (hw : width % 2 = 1) (hh : height % 2 = 1)
    (hw3 : 3 ≤ width) (hh3 : 3 ≤ height) :
    ∀ (fuel : Nat) (m : Maze) (cx cy : Int) (dirs : List (Int × Int)) (k : Nat),
      (∀ d ∈ dirs, d ∈ carveDirs) →
      1 ≤ cx → cx ≤ (width : Int) - 2 → cx % 2 = 1 →
      1 ≤ cy → cy ≤ (height : Int) - 2 → cy % 2 = 1 →
      bordersWall width height m →
      bordersWall width height
        (carveStep width height oracle fuel m cx cy dirs k).1 := by
  intro fuel
  induction fuel with
  | zero =>
    intro m cx cy dirs k _ _ _ _ _ _ _ hB
    simp only [carveStep]
    exact hB
  | succ f ih =>
    intro m cx cy dirs k hdirs hcx1 hcx2 hcxo hcy1 hcy2 hcyo hB
    cases dirs with
    | nil =>
      simp only [carveStep]
      exact hB
    | cons d rest =>
      have hdfact := carveDirs_fact d (hdirs d (List.mem_cons_self _ _))
      have hrest : ∀ d2 ∈ rest, d2 ∈ carveDirs :=
        fun d2 hd2 => hdirs d2 (List.mem_cons_of_mem _ hd2)
      by_cases hg : 0 ≤ cx + d.1 ∧ cx + d.1 < (width : Int) ∧ 0 ≤ cy + d.2 ∧
          cy + d.2 < (height : Int) ∧ mazeCell m (cy + d.2) (cx + d.1) = 1
      · simp only [carveStep, if_pos hg]
        obtain ⟨hg1, hg2, hg3, hg4, hg5⟩ := hg
        refine ih _ cx cy rest _ hrest hcx1 hcx2 hcxo hcy1 hcy2 hcyo ?_
        refine ih _ (cx + d.1) (cy + d.2) (shuffleOf oracle k) (k + 1)
          (shuffleOf_mem oracle k)
          (by omega) (by omega) (by omega) (by omega) (by omega) (by omega) ?_
        refine bordersWall_set width height _ ?_ _ _ 0
          (by omega) (by omega) (by omega) (by omega)
        exact bordersWall_set width height m hB _ _ 0
          (by omega) (by omega) (by omega) (by omega)
      · simp only [carveStep, if_neg hg]
        exact ih m cx cy rest k hrest hcx1 hcx2 hcxo hcy1 hcy2 hcyo hB

/-- The coerced random start coordinate is odd and strictly interior. -/
theorem oddPick_spec (dim s : Nat) (hodd : dim % 2 = 1) (h3 : 3 ≤ dim) :
    1 ≤ oddPick dim s ∧ oddPick dim s ≤ dim - 2 ∧ oddPick dim s % 2 = 1 := by
  unfold oddPick
  by_cases hs : s % 2 = 1 ∧ s < dim
  · rw [if_pos hs]
    omega
  · rw [if_neg hs]
    omega

/-- Claim C10: for every odd width >= 3 and odd height >= 3 and every
outcome of the random choices, every border cell of the generated maze
(row 0, row height-1, column 0, column width-1) is WALL: the carving
only writes cells with both coordinates in [1, dim-2], and the forced
entry (1,1) and exit (height-2, width-2) writes are interior too. -/
theorem generate_maze_border (width height startW startH : Nat)
    (oracle : Nat → List (Int × Int))
    (hw : width % 2 = 1) (hh : height % 2 = 1)
    (hw3 : 3 ≤ width) (hh3 : 3 ≤ height) :
    ∀ y x : Nat, y < height → x < width →
      (y = 0 ∨ y = height - 1 ∨ x = 0 ∨ x = width - 1) →
      mazeCell (generate_maze width height startW startH oracle)
        (y : Int) (x : Int) = 1 := by
  have hsw := oddPick_spec width startW hw hw3
  have hsh := oddPick_spec height startH hh hh3
  have hbase : bordersWall width height
      (List.replicate height (List.replicate width 1)) :=
    fun y x _ _ _ => mazeCell_replicate height width (y : Int) (x : Int)
  have hcarved : bordersWall width height
      ((carve_path width height oracle (5 * width * height + 5)
        (List.replicate height (List.replicate width 1))
        (oddPick width startW) (oddPick height startH) 0).1) := by
    unfold carve_path
    refine carveStep_borders width height oracle hw hh hw3 hh3 _ _ _ _ _ _
      (shuffleOf_mem oracle 0)
      (by omega) (by omega) (by omega) (by omega) (by omega) (by omega) ?_
    exact bordersWall_set width height _ hbase _ _ 0
      (by omega) (by omega) (by omega) (by omega)
  intro y x hy hx hborder
  refine (bordersWall_set width height _ ?_ _ _ 0
      (by omega) (by omega) (by omega) (by omega)) y x hy hx hborder
  exact bordersWall_set width height _ hcarved 1 1 0
    (by omega) (by omega) (by omega) (by omega)

/-- Witness for generate_maze_border: the 3x3 maze generated with the
identity-ordered shuffles has a wall at its top-left corner. -/
theorem generate_maze_border_witness :
    mazeCell (generate_maze 3 3 1 1 (fun _ => carveDirs))
      ((0 : Nat) : Int) ((0 : Nat) : Int) = 1 :=
  generate_maze_border 3 3 1 1 (fun _ => carveDirs)
    (by decide) (by decide) (by decide) (by decide) 0 0
    (by decide) (by decide) (Or.inl rfl)

/- ======================================================================
   Maze generator: the carved-cell graph (towards the perfect-maze claim)
   ====================================================================== -/

/-- p is a carved (PATH) cell: non-negative coordinates holding 0.
Given the grid shape below this coincides with isPathCell. -/
def carvedCell (m : Maze) (p : MazePos) : Prop :=
  0 ≤ p.1 ∧ 0 ≤ p.2 ∧ mazeCell m p.1 p.2 = 0

/-- The grid has height rows, each of width cells. -/
def gridShape (width height : Nat) (m : Maze) : Prop :=
  m.length = height ∧ ∀ row ∈ m, row.length = width

/-- 4-adjacency is symmetric. -/
theorem adjacentPos_symm (p q : MazePos) (h : adjacentPos p q) :
    adjacentPos q p := by
  obtain ⟨d, hd, rfl⟩ := h
  simp only [stepDirs, List.mem_cons, List.not_mem_nil, or_false] at hd
  rcases hd with h | h | h | h <;> subst h
  · exact ⟨(0, -1), by simp [stepDirs], by simp⟩
  · exact ⟨(0, 1), by simp [stepDirs], by simp⟩
  · exact ⟨(-1, 0), by simp [stepDirs], by simp⟩
  · exact ⟨(1, 0), by simp [stepDirs], by simp⟩

/-- 4-adjacency is irreflexive. -/
theorem adjacentPos_irrefl (p : MazePos) (h : adjacentPos p p) : False := by
  obtain ⟨d, hd, he⟩ := h
  simp only [stepDirs, List.mem_cons, List.not_mem_nil, or_false] at hd
  have h1 : p.1 = p.1 + d.1 ∧ p.2 = p.2 + d.2 := by
    constructor
    · exact congrArg Prod.fst he
    · exact congrArg Prod.snd he
  rcases hd with h | h | h | h <;> subst h <;> omega

/-- The graph whose vertices are positions and whose edges join
4-adjacent carved cells of m. -/
def mazeGraphAll (m : Maze) : SimpleGraph MazePos where
  Adj p q := carvedCell m p ∧ carvedCell m q ∧ adjacentPos p q
  symm := by
    intro p q h
    exact ⟨h.2.1, h.1, adjacentPos_symm p q h.2.2⟩
  loopless := by
    intro p h
    exact adjacentPos_irrefl p h.2.2

/-- A carved cell lies strictly inside the grid extents. -/
theorem carvedCell_bounds (width height : Nat) (m : Maze)
    (hs : gridShape width height m) (p : MazePos) (hp : carvedCell m p) :
    p.1 < (height : Int) ∧ p.2 < (width : Int) := by
  obtain ⟨hp1, hp2, hp0⟩ := hp
  obtain ⟨hsl, hsr⟩ := hs
  unfold mazeCell at hp0
  rcases Nat.lt_or_ge p.1.toNat m.length with hy | hy
  · have hrow : m.getD p.1.toNat [] = m[p.1.toNat] := List.getD_eq_getElem m [] hy
    have hlen : (m[p.1.toNat]).length = width := hsr _ (List.getElem_mem hy)
    rw [hrow] at hp0
    rcases Nat.lt_or_ge p.2.toNat (m[p.1.toNat]).length with hx | hx
    · constructor
      · omega
      · omega
    · exfalso
      rw [List.getD_eq_getElem?_getD, List.getElem?_eq_none (by omega)] at hp0
      simp at hp0
  · exfalso
    have hrow0 : m.getD p.1.toNat ([] : List Nat) = [] := by
      rw [List.getD_eq_getElem?_getD, List.getElem?_eq_none (by omega)]
      rfl
    rw [hrow0] at hp0
    simp at hp0

/-- setMazeCell preserves the grid shape. -/
theorem gridShape_setMazeCell (width height : Nat) (m : Maze)
    (hs : gridShape width height m) (y x : Int) (v : Nat) :
    gridShape width height (setMazeCell m y x v) := by
  rcases Nat.lt_or_ge y.toNat m.length with hy | hy
  · constructor
    · rw [setMazeCell, List.length_set]
      exact hs.1
    · intro row hrow
      rcases List.mem_or_eq_of_mem_set hrow with h | h
      · exact hs.2 row h
      · subst h
        rw [List.length_set, List.getD_eq_getElem m [] hy]
        exact hs.2 _ (List.getElem_mem hy)
  · have hnoop : setMazeCell m y x v = m := by
      unfold setMazeCell
      exact List.set_eq_of_length_le hy
    rw [hnoop]
    exact hs

/-- Reading back the cell just written, inside the grid. -/
theorem mazeCell_setMazeCell_same (width height : Nat) (m : Maze)
    (hs : gridShape width height m) (y x : Int) (v : Nat)
    (hy1 : 0 ≤ y) (hy2 : y < (height : Int))
    (hx1 : 0 ≤ x) (hx2 : x < (width : Int)) :
    mazeCell (setMazeCell m y x v) y x = v := by
  obtain ⟨hsl, hsr⟩ := hs
  unfold mazeCell setMazeCell
  have hylt : y.toNat < m.length := by omega
  have hrow : (m.set y.toNat ((m.getD y.toNat []).set x.toNat v)).getD
      y.toNat [] = (m.getD y.toNat []).set x.toNat v := by
    rw [List.getD_eq_getElem?_getD, List.getElem?_set_eq_of_lt _ hylt]
    rfl
  rw [hrow]
  have hlen : (m.getD y.toNat []).length = width := by
    rw [List.getD_eq_getElem m [] hylt]
    exact hsr _ (List.getElem_mem hylt)
  have hxlt : x.toNat < (m.getD y.toNat []).length := by omega
  rw [List.getD_eq_getElem?_getD, List.getElem?_set_eq_of_lt _ hxlt]
  rfl

/-- A walk of positive length into n ends with an edge s(z, n) whose
other endpoint z lies on the walk. -/
theorem exists_last_edge {V : Type} {G : SimpleGraph V} :
    ∀ {y n : V} (p : G.Walk y n), 1 ≤ p.length →
      ∃ z, G.Adj z n ∧ s(z, n) ∈ p.edges ∧ z ∈ p.support := by
  intro y n p
  induction p with
  | nil => intro hp; simp at hp
  | cons h q ih =>
    intro _
    cases q with
    | nil => exact ⟨_, h, by simp, by simp⟩
    | cons h2 q2 =>
      obtain ⟨z, hz, hze, hzs⟩ := ih (by simp [SimpleGraph.Walk.length_cons])
      refine ⟨z, hz, ?_, ?_⟩
      · simp only [SimpleGraph.Walk.edges_cons]
        exact List.mem_cons_of_mem _ hze
      · simp only [SimpleGraph.Walk.support_cons]
        exact List.mem_cons_of_mem _ hzs

/-- No cycle can pass through a vertex n0 all of whose neighbors on the
cycle are one single vertex a: the first and last cycle edges at n0
would coincide, contradicting edge-distinctness. -/
theorem pendant_no_cycle {V : Type} {G : SimpleGraph V} {n0 a : V}
    (cyc : G.Walk n0 n0) (hcyc : cyc.IsCycle)
    (hnb : ∀ u, G.Adj n0 u → u ∈ cyc.support → u = a) : False := by
  cases cyc with
  | nil => exact hcyc.ne_nil rfl
  | cons h p =>
    have h3 := hcyc.three_le_length
    have hpl : 1 ≤ p.length := by
      simp only [SimpleGraph.Walk.length_cons] at h3
      omega
    obtain ⟨z, hz, hze, hzs⟩ := exists_last_edge p hpl
    have hyA := hnb _ h (by
      rw [SimpleGraph.Walk.support_cons]
      exact List.mem_cons_of_mem _ p.start_mem_support)
    have hzA : z = a := hnb z (G.symm hz) (by
      rw [SimpleGraph.Walk.support_cons]
      exact List.mem_cons_of_mem _ hzs)
    have hnodup := hcyc.toIsCircuit.toIsTrail.edges_nodup
    rw [SimpleGraph.Walk.edges_cons] at hnodup
    subst hyA
    subst hzA
    have hmem : s(n0, z) ∈ p.edges := by
      rw [Sym2.eq_swap]
      exact hze
    exact (List.nodup_cons.mp hnodup).1 hmem

/-- Membership in the support of a rotated closed walk. -/
theorem mem_support_rotate {V : Type} [DecidableEq V] {G : SimpleGraph V}
    {v u w : V} (cyc : G.Walk v v) (hv : u ∈ cyc.support)
    (hw : w ∈ (cyc.rotate hv).support) : w ∈ cyc.support := by
  have h1 := SimpleGraph.Walk.support_rotate cyc hv
  rw [SimpleGraph.Walk.support_eq_cons] at hw
  rcases List.mem_cons.mp hw with h | h
  · exact h ▸ hv
  · have h2 := h1.mem_iff.mp h
    rw [SimpleGraph.Walk.support_eq_cons cyc]
    exact List.mem_cons_of_mem _ h2

/-- Attaching a pendant path c0 - mid - n0 (mid and n0 previously
isolated) to an acyclic graph keeps it acyclic: any cycle would have to
pass through mid or n0, whose neighbors are too few, or avoid both and
live in the old graph. -/
theorem isAcyclic_pendant {V : Type} [DecidableEq V] {G G2 : SimpleGraph V}
    {c0 mid n0 : V}
    (hG : G.IsAcyclic)
    (hchar : ∀ u v, G2.Adj u v ↔ G.Adj u v ∨ (u = c0 ∧ v = mid) ∨
      (u = mid ∧ v = c0) ∨ (u = mid ∧ v = n0) ∨ (u = n0 ∧ v = mid))
    (hmidiso : ∀ u, ¬ G.Adj mid u) (hniso : ∀ u, ¬ G.Adj n0 u)
    (hcm : c0 ≠ mid) (hmn : mid ≠ n0) (hcn : c0 ≠ n0) :
    G2.IsAcyclic := by
  intro v cyc hcyc
  by_cases hn : n0 ∈ cyc.support
  · refine @pendant_no_cycle V G2 n0 mid (cyc.rotate hn) (hcyc.rotate hn) ?_
    intro u hu _
    rw [hchar] at hu
    rcases hu with h | ⟨h1, h2⟩ | ⟨h1, h2⟩ | ⟨h1, h2⟩ | ⟨h1, h2⟩
    · exact absurd h (hniso u)
    · exact absurd h1.symm hcn
    · exact absurd h1.symm hmn
    · exact absurd h1.symm hmn
    · exact h2
  · by_cases hm : mid ∈ cyc.support
    · refine @pendant_no_cycle V G2 mid c0 (cyc.rotate hm) (hcyc.rotate hm) ?_
      intro u hu hus
      rw [hchar] at hu
      rcases hu with h | ⟨h1, h2⟩ | ⟨h1, h2⟩ | ⟨h1, h2⟩ | ⟨h1, h2⟩
      · exact absurd h (hmidiso u)
      · exact absurd h1 (hcm.symm)
      · exact h2
      · exfalso
        apply hn
        exact mem_support_rotate cyc hm (h2 ▸ hus)
      · exact absurd h1 hmn
    · have hedges : ∀ e ∈ cyc.edges, e ∈ G.edgeSet := by
        intro e he
        revert he
        refine Sym2.inductionOn e ?_
        intro x y he
        have hadj := cyc.adj_of_mem_edges he
        have hxs := cyc.fst_mem_support_of_mem_edges he
        have hys := cyc.snd_mem_support_of_mem_edges he
        rw [hchar] at hadj
        rcases hadj with h | ⟨h1, h2⟩ | ⟨h1, h2⟩ | ⟨h1, h2⟩ | ⟨h1, h2⟩
        · exact G.mem_edgeSet.mpr h
        · exact absurd (h2 ▸ hys) hm
        · exact absurd (h1 ▸ hxs) hm
        · exact absurd (h1 ▸ hxs) hm
        · exact absurd (h1 ▸ hxs) hn
      exact hG (cyc.transfer G hedges) (hcyc.transfer hedges)

/-- State invariant of the carver.  Besides the grid shape it records:
even-even cells are never carved; every carved between-wall cell links
two carved cells (horizontally when its row is odd, vertically when its
column is odd); all carved cells are mutually reachable in the
carved-cell graph; and the carved-cell graph is acyclic. -/
structure CarveInv (width height : Nat) (m : Maze) : Prop where
  shape : gridShape width height m
  evenWall : ∀ y x : Int, 0 ≤ y → 0 ≤ x → y % 2 = 0 → x % 2 = 0 →
    mazeCell m y x = 1
  linksH : ∀ y x : Int, 0 ≤ y → 0 ≤ x → y % 2 = 1 → x % 2 = 0 →
    mazeCell m y x = 0 →
    1 ≤ x ∧ mazeCell m y (x - 1) = 0 ∧ mazeCell m y (x + 1) = 0
  linksV : ∀ y x : Int, 0 ≤ y → 0 ≤ x → y % 2 = 0 → x % 2 = 1 →
    mazeCell m y x = 0 →
    1 ≤ y ∧ mazeCell m (y - 1) x = 0 ∧ mazeCell m (y + 1) x = 0
  conn : ∀ p q : MazePos, carvedCell m p → carvedCell m q →
    (mazeGraphAll m).Reachable p q
  acyclic : (mazeGraphAll m).IsAcyclic
  binary : ∀ y x : Int, mazeCell m y x = 0 ∨ mazeCell m y x = 1

/-- The context of one guarded carve: the invariant, the current cell
(cx, cy) odd and interior and carved, a direction from the source list,
and the source's guard (neighbor in bounds and still wall). -/
structure CarveCtx (width height : Nat) (m : Maze) (cx cy : Int)
    (d : Int × Int) : Prop where
  inv : CarveInv width height m
  wo : width % 2 = 1
  ho : height % 2 = 1
  hd : d ∈ carveDirs
  cx1 : 1 ≤ cx
  cx2 : cx ≤ (width : Int) - 2
  cxo : cx % 2 = 1
  cy1 : 1 ≤ cy
  cy2 : cy ≤ (height : Int) - 2
  cyo : cy % 2 = 1
  cc : mazeCell m cy cx = 0
  g1 : 0 ≤ cx + d.1
  g2 : cx + d.1 < (width : Int)
  g3 : 0 ≤ cy + d.2
  g4 : cy + d.2 < (height : Int)
  g5 : mazeCell m (cy + d.2) (cx + d.1) = 1

/-- Geometry of the guarded step: bounds and parities of the between
cell (cy + d.2/2, cx + d.1/2) and the neighbor cell (cy + d.2, cx + d.1),
and distinctness from the current cell (cy, cx). -/
theorem carveCtx_geom {width height : Nat} {m : Maze} {cx cy : Int}
    {d : Int × Int} (H : CarveCtx width height m cx cy d) :
    1 ≤ cy + d.2 / 2 ∧ cy + d.2 / 2 < (height : Int) ∧
    1 ≤ cx + d.1 / 2 ∧ cx + d.1 / 2 < (width : Int) ∧
    1 ≤ cy + d.2 ∧ cy + d.2 ≤ (height : Int) - 2 ∧
    1 ≤ cx + d.1 ∧ cx + d.1 ≤ (width : Int) - 2 ∧
    (cy + d.2) % 2 = 1 ∧ (cx + d.1) % 2 = 1 ∧
    ((cy + d.2 / 2) % 2 = 0 ∧ (cx + d.1 / 2) % 2 = 1 ∨
      (cy + d.2 / 2) % 2 = 1 ∧ (cx + d.1 / 2) % 2 = 0) ∧
    ¬(cy + d.2 / 2 = cy ∧ cx + d.1 / 2 = cx) ∧
    ¬(cy + d.2 / 2 = cy + d.2 ∧ cx + d.1 / 2 = cx + d.1) ∧
    ¬(cy = cy + d.2 ∧ cx = cx + d.1) := by
  have hdf := carveDirs_fact d H.hd
  have hwo := H.wo
  have hho := H.ho
  have h1 := H.cx1
  have h2 := H.cx2
  have h3 := H.cxo
  have h4 := H.cy1
  have h5 := H.cy2
  have h6 := H.cyo
  have h7 := H.g1
  have h8 := H.g2
  have h9 := H.g3
  have h10 := H.g4
  omega

/-- The maze after the two writes of a guarded step. -/
def m2Of (m : Maze) (cx cy : Int) (d : Int × Int) : Maze :=
  setMazeCell (setMazeCell m (cy + d.2 / 2) (cx + d.1 / 2) 0)
    (cy + d.2) (cx + d.1) 0

/-- Reading the between cell after the two writes. -/
theorem m2_cell_mid {width height : Nat} {m : Maze} {cx cy : Int}
    {d : Int × Int} (H : CarveCtx width height m cx cy d) :
    mazeCell (m2Of m cx cy d) (cy + d.2 / 2) (cx + d.1 / 2) = 0 := by
  obtain ⟨gm1, gm2, gm3, gm4, gn1, gn2, gn3, gn4, gno1, gno2, gpar, gne1,
    gne2, gne3⟩ := carveCtx_geom H
  have hstep : mazeCell (setMazeCell m (cy + d.2 / 2) (cx + d.1 / 2) 0)
      (cy + d.2 / 2) (cx + d.1 / 2) = 0 :=
    mazeCell_setMazeCell_same width height m H.inv.shape _ _ 0
      (by omega) gm2 (by omega) gm4
  unfold m2Of
  rw [mazeCell_setMazeCell_ne _ _ _ _ _ _ (by omega)]
  exact hstep

/-- Reading the neighbor cell after the two writes. -/
theorem m2_cell_n {width height : Nat} {m : Maze} {cx cy : Int}
    {d : Int × Int} (H : CarveCtx width height m cx cy d) :
    mazeCell (m2Of m cx cy d) (cy + d.2) (cx + d.1) = 0 := by
  obtain ⟨gm1, gm2, gm3, gm4, gn1, gn2, gn3, gn4, gno1, gno2, gpar, gne1,
    gne2, gne3⟩ := carveCtx_geom H
  have hs1 := gridShape_setMazeCell width height m H.inv.shape
    (cy + d.2 / 2) (cx + d.1 / 2) 0
  unfold m2Of
  exact mazeCell_setMazeCell_same width height _ hs1 _ _ 0
    (by omega) (by omega) (by omega) (by omega)

/-- Reading any other cell after the two writes. -/
theorem m2_cell_other {width height : Nat} {m : Maze} {cx cy : Int}
    {d : Int × Int} (H : CarveCtx width height m cx cy d) (y x : Int)
    (hne1 : ¬(y = cy + d.2 / 2 ∧ x = cx + d.1 / 2))
    (hne2 : ¬(y = cy + d.2 ∧ x = cx + d.1)) :
    mazeCell (m2Of m cx cy d) y x = mazeCell m y x := by
  obtain ⟨gm1, gm2, gm3, gm4, gn1, gn2, gn3, gn4, gno1, gno2, gpar, gne1a,
    gne2a, gne3a⟩ := carveCtx_geom H
  unfold m2Of
  rw [mazeCell_setMazeCell_ne _ _ _ _ _ _ (by omega),
    mazeCell_setMazeCell_ne _ _ _ _ _ _ (by omega)]

/-- Carved cells after the two writes: the old ones plus the between
cell and the neighbor cell. -/
theorem m2_carved_iff {width height : Nat} {m : Maze} {cx cy : Int}
    {d : Int × Int} (H : CarveCtx width height m cx cy d) (p : MazePos) :
    carvedCell (m2Of m cx cy d) p ↔
      carvedCell m p ∨ p = (cy + d.2 / 2, cx + d.1 / 2) ∨
        p = (cy + d.2, cx + d.1) := by
  obtain ⟨gm1, gm2, gm3, gm4, gn1, gn2, gn3, gn4, gno1, gno2, gpar, gne1,
    gne2, gne3⟩ := carveCtx_geom H
  constructor
  · intro ⟨hp1, hp2, hp0⟩
    by_cases h1 : p.1 = cy + d.2 / 2 ∧ p.2 = cx + d.1 / 2
    · exact Or.inr (Or.inl (Prod.ext h1.1 h1.2))
    · by_cases h2 : p.1 = cy + d.2 ∧ p.2 = cx + d.1
      · exact Or.inr (Or.inr (Prod.ext h2.1 h2.2))
      · left
        refine ⟨hp1, hp2, ?_⟩
        rw [← m2_cell_other H p.1 p.2 h1 h2]
        exact hp0
  · intro h
    rcases h with h | h | h
    · obtain ⟨hp1, hp2, hp0⟩ := h
      by_cases h1 : p.1 = cy + d.2 / 2 ∧ p.2 = cx + d.1 / 2
      · refine ⟨hp1, hp2, ?_⟩
        rw [h1.1, h1.2]
        exact m2_cell_mid H
      · by_cases h2 : p.1 = cy + d.2 ∧ p.2 = cx + d.1
        · refine ⟨hp1, hp2, ?_⟩
          rw [h2.1, h2.2]
          exact m2_cell_n H
        · refine ⟨hp1, hp2, ?_⟩
          rw [m2_cell_other H p.1 p.2 h1 h2]
          exact hp0
    · subst h
      exact ⟨by omega, by omega, m2_cell_mid H⟩
    · subst h
      exact ⟨by omega, by omega, m2_cell_n H⟩

/-- 4-adjacency between explicit coordinate pairs, as linear arithmetic. -/
theorem adjacentPos_mk (a b c e : Int) :
    adjacentPos (a, b) (c, e) ↔
      (c = a ∧ e = b + 1) ∨ (c = a ∧ e = b - 1) ∨
      (c = a + 1 ∧ e = b) ∨ (c = a - 1 ∧ e = b) := by
  constructor
  · rintro ⟨s, hs, h⟩
    rw [Prod.ext_iff] at h
    simp only [stepDirs, List.mem_cons, List.not_mem_nil, or_false] at hs
    rcases hs with rfl | rfl | rfl | rfl <;> simp at h <;> omega
  · intro h
    rcases h with ⟨h1, h2⟩ | ⟨h1, h2⟩ | ⟨h1, h2⟩ | ⟨h1, h2⟩
    · refine ⟨(0, 1), by simp [stepDirs], ?_⟩
      rw [Prod.ext_iff]
      constructor <;> simp <;> omega
    · refine ⟨(0, -1), by simp [stepDirs], ?_⟩
      rw [Prod.ext_iff]
      constructor <;> simp <;> omega
    · refine ⟨(1, 0), by simp [stepDirs], ?_⟩
      rw [Prod.ext_iff]
      constructor <;> simp <;> omega
    · refine ⟨(-1, 0), by simp [stepDirs], ?_⟩
      rw [Prod.ext_iff]
      constructor <;> simp <;> omega

/-- Carving never un-carves: a zero cell stays zero after the two writes. -/
theorem m2_cell_zero_of {width height : Nat} {m : Maze} {cx cy : Int}
    {d : Int × Int} (H : CarveCtx width height m cx cy d) (y x : Int)
    (h : mazeCell m y x = 0) : mazeCell (m2Of m cx cy d) y x = 0 := by
  by_cases h1 : y = cy + d.2 / 2 ∧ x = cx + d.1 / 2
  · rw [h1.1, h1.2]
    exact m2_cell_mid H
  by_cases h2 : y = cy + d.2 ∧ x = cx + d.1
  · rw [h2.1, h2.2]
    exact m2_cell_n H
  rw [m2_cell_other H y x h1 h2]
  exact h

/-- The between cell is still a wall before the step: were it carved, the
link invariant would force the guarded neighbor to be carved too. -/
theorem mid_wall {width height : Nat} {m : Maze} {cx cy : Int}
    {d : Int × Int} (H : CarveCtx width height m cx cy d) :
    mazeCell m (cy + d.2 / 2) (cx + d.1 / 2) ≠ 0 := by
  intro h0
  have hdf := carveDirs_fact d H.hd
  have hg := H.g5
  have hcy1 := H.cy1
  have hcx1 := H.cx1
  have hcyo := H.cyo
  have hcxo := H.cxo
  rcases hdf with ⟨h1, h2 | h2⟩ | ⟨h1, h2 | h2⟩ <;>
  first
    | (obtain ⟨h9, hl, hr⟩ := H.inv.linksV (cy + d.2 / 2) (cx + d.1 / 2)
        (by omega) (by omega) (by omega) (by omega) h0
       first
         | (rw [show cy + d.2 / 2 - 1 = cy + d.2 by omega,
              show cx + d.1 / 2 = cx + d.1 by omega] at hl
            omega)
         | (rw [show cy + d.2 / 2 + 1 = cy + d.2 by omega,
              show cx + d.1 / 2 = cx + d.1 by omega] at hr
            omega))
    | (obtain ⟨h9, hl, hr⟩ := H.inv.linksH (cy + d.2 / 2) (cx + d.1 / 2)
        (by omega) (by omega) (by omega) (by omega) h0
       first
         | (rw [show cx + d.1 / 2 - 1 = cx + d.1 by omega,
              show cy + d.2 / 2 = cy + d.2 by omega] at hl
            omega)
         | (rw [show cx + d.1 / 2 + 1 = cx + d.1 by omega,
              show cy + d.2 / 2 = cy + d.2 by omega] at hr
            omega))

/-- The only carved cell of m adjacent to the between cell is the
current cell: the orthogonal neighbors are even-even walls and the
guarded neighbor is a wall. -/
theorem mid_nbr {width height : Nat} {m : Maze} {cx cy : Int}
    {d : Int × Int} (H : CarveCtx width height m cx cy d) (uy ux : Int)
    (hu : carvedCell m (uy, ux))
    (hadj : adjacentPos (uy, ux) (cy + d.2 / 2, cx + d.1 / 2)) :
    uy = cy ∧ ux = cx := by
  simp only [carvedCell] at hu
  obtain ⟨hu1, hu2, hu0⟩ := hu
  rw [adjacentPos_mk] at hadj
  have hdf := carveDirs_fact d H.hd
  have hcyo := H.cyo
  have hcxo := H.cxo
  rcases hdf with ⟨h1, h2 | h2⟩ | ⟨h1, h2 | h2⟩ <;>
    rcases hadj with ⟨e1, e2⟩ | ⟨e1, e2⟩ | ⟨e1, e2⟩ | ⟨e1, e2⟩ <;>
  first
    | (constructor <;> omega)
    | (have hew := H.inv.evenWall uy ux hu1 hu2 (by omega) (by omega)
       omega)
    | (rw [show uy = cy + d.2 by omega, show ux = cx + d.1 by omega] at hu0
       have hg := H.g5
       omega)

/-- No carved cell of m is adjacent to the guarded neighbor cell: each
of its four neighbors is either the (wall) between cell or a link cell
whose link invariant would force the neighbor itself to be carved. -/
theorem n_nbr {width height : Nat} {m : Maze} {cx cy : Int}
    {d : Int × Int} (H : CarveCtx width height m cx cy d) (uy ux : Int)
    (hu : carvedCell m (uy, ux))
    (hadj : adjacentPos (uy, ux) (cy + d.2, cx + d.1)) : False := by
  simp only [carvedCell] at hu
  obtain ⟨hu1, hu2, hu0⟩ := hu
  rw [adjacentPos_mk] at hadj
  have hdf := carveDirs_fact d H.hd
  have hcyo := H.cyo
  have hcxo := H.cxo
  have hg := H.g5
  rcases hdf with ⟨h1, h2 | h2⟩ | ⟨h1, h2 | h2⟩ <;>
    rcases hadj with ⟨e1, e2⟩ | ⟨e1, e2⟩ | ⟨e1, e2⟩ | ⟨e1, e2⟩ <;>
  first
    | (rw [show uy = cy + d.2 / 2 by omega,
         show ux = cx + d.1 / 2 by omega] at hu0
       exact mid_wall H hu0)
    | (obtain ⟨h9, hl, hr⟩ := H.inv.linksH uy ux hu1 hu2
        (by omega) (by omega) hu0
       first
         | (rw [show uy = cy + d.2 by omega,
              show ux - 1 = cx + d.1 by omega] at hl
            omega)
         | (rw [show uy = cy + d.2 by omega,
              show ux + 1 = cx + d.1 by omega] at hr
            omega))
    | (obtain ⟨h9, hl, hr⟩ := H.inv.linksV uy ux hu1 hu2
        (by omega) (by omega) hu0
       first
         | (rw [show uy - 1 = cy + d.2 by omega,
              show ux = cx + d.1 by omega] at hl
            omega)
         | (rw [show uy + 1 = cy + d.2 by omega,
              show ux = cx + d.1 by omega] at hr
            omega))

/-- Adjacency after the two writes: the old edges plus the pendant path
current - between - neighbor. -/
theorem m2_adj_iff {width height : Nat} {m : Maze} {cx cy : Int}
    {d : Int × Int} (H : CarveCtx width height m cx cy d)
    (u v : MazePos) :
    (mazeGraphAll (m2Of m cx cy d)).Adj u v ↔
      (mazeGraphAll m).Adj u v ∨
      (u = ((cy, cx) : MazePos) ∧ v = (cy + d.2 / 2, cx + d.1 / 2)) ∨
      (u = ((cy + d.2 / 2, cx + d.1 / 2) : MazePos) ∧ v = (cy, cx)) ∨
      (u = ((cy + d.2 / 2, cx + d.1 / 2) : MazePos) ∧
        v = (cy + d.2, cx + d.1)) ∨
      (u = ((cy + d.2, cx + d.1) : MazePos) ∧
        v = (cy + d.2 / 2, cx + d.1 / 2)) := by
  constructor
  · intro h
    have h' : carvedCell (m2Of m cx cy d) u ∧ carvedCell (m2Of m cx cy d) v ∧
        adjacentPos u v := h
    obtain ⟨hcu, hcv, hadj⟩ := h'
    rw [m2_carved_iff H] at hcu hcv
    rcases hcu with hcu | rfl | rfl <;> rcases hcv with hcv | rfl | rfl
    · exact Or.inl ⟨hcu, hcv, hadj⟩
    · obtain ⟨uy, ux⟩ := u
      have he := mid_nbr H uy ux hcu hadj
      exact Or.inr (Or.inl ⟨Prod.ext_iff.mpr ⟨he.1, he.2⟩, rfl⟩)
    · obtain ⟨uy, ux⟩ := u
      exact (n_nbr H uy ux hcu hadj).elim
    · obtain ⟨vy, vx⟩ := v
      have he := mid_nbr H vy vx hcv (adjacentPos_symm _ _ hadj)
      exact Or.inr (Or.inr (Or.inl ⟨rfl, Prod.ext_iff.mpr ⟨he.1, he.2⟩⟩))
    · exact (adjacentPos_irrefl _ hadj).elim
    · exact Or.inr (Or.inr (Or.inr (Or.inl ⟨rfl, rfl⟩)))
    · obtain ⟨vy, vx⟩ := v
      exact (n_nbr H vy vx hcv (adjacentPos_symm _ _ hadj)).elim
    · exact Or.inr (Or.inr (Or.inr (Or.inr ⟨rfl, rfl⟩)))
    · exact (adjacentPos_irrefl _ hadj).elim
  · intro h
    have hdf := carveDirs_fact d H.hd
    have hc0m : carvedCell m ((cy, cx) : MazePos) :=
      ⟨by have := H.cy1; omega, by have := H.cx1; omega, H.cc⟩
    have hc02 : carvedCell (m2Of m cx cy d) ((cy, cx) : MazePos) :=
      (m2_carved_iff H _).mpr (Or.inl hc0m)
    have hcmid : carvedCell (m2Of m cx cy d)
        ((cy + d.2 / 2, cx + d.1 / 2) : MazePos) :=
      (m2_carved_iff H _).mpr (Or.inr (Or.inl rfl))
    have hcn : carvedCell (m2Of m cx cy d)
        ((cy + d.2, cx + d.1) : MazePos) :=
      (m2_carved_iff H _).mpr (Or.inr (Or.inr rfl))
    have hadj1 : adjacentPos ((cy, cx) : MazePos)
        (cy + d.2 / 2, cx + d.1 / 2) :=
      (adjacentPos_mk _ _ _ _).mpr (by omega)
    have hadj2 : adjacentPos ((cy + d.2 / 2, cx + d.1 / 2) : MazePos)
        (cy + d.2, cx + d.1) :=
      (adjacentPos_mk _ _ _ _).mpr (by omega)
    rcases h with h | ⟨rfl, rfl⟩ | ⟨rfl, rfl⟩ | ⟨rfl, rfl⟩ | ⟨rfl, rfl⟩
    · have h' : carvedCell m u ∧ carvedCell m v ∧ adjacentPos u v := h
      exact ⟨(m2_carved_iff H u).mpr (Or.inl h'.1),
        (m2_carved_iff H v).mpr (Or.inl h'.2.1), h'.2.2⟩
    · exact ⟨hc02, hcmid, hadj1⟩
    · exact ⟨hcmid, hc02, adjacentPos_symm _ _ hadj1⟩
    · exact ⟨hcmid, hcn, hadj2⟩
    · exact ⟨hcn, hcmid, adjacentPos_symm _ _ hadj2⟩

/-- The carving invariant survives one guarded double write. -/
theorem carveInv_m2 {width height : Nat} {m : Maze} {cx cy : Int}
    {d : Int × Int} (H : CarveCtx width height m cx cy d) :
    CarveInv width height (m2Of m cx cy d) := by
  obtain ⟨gm1, gm2, gm3, gm4, gn1, gn2, gn3, gn4, gno1, gno2, gpar, gne1,
    gne2, gne3⟩ := carveCtx_geom H
  have hdf := carveDirs_fact d H.hd
  refine ⟨?_, ?_, ?_, ?_, ?_, ?_, ?_⟩
  · exact gridShape_setMazeCell width height _
      (gridShape_setMazeCell width height m H.inv.shape _ _ 0) _ _ 0
  · intro y x hy hx hey hex
    rw [m2_cell_other H y x (by omega) (by omega)]
    exact H.inv.evenWall y x hy hx hey hex
  · intro y x hy hx hyo hxe h0
    by_cases hmid : y = cy + d.2 / 2 ∧ x = cx + d.1 / 2
    · obtain ⟨e1, e2⟩ := hmid
      subst e1
      subst e2
      have hcyo := H.cyo
      have hcxo := H.cxo
      rcases hdf with ⟨h1, h2 | h2⟩ | ⟨h1, h2 | h2⟩ <;>
        (refine ⟨by omega, ?_, ?_⟩ <;>
        first
          | (rw [show cy + d.2 / 2 = cy by omega,
               show cx + d.1 / 2 - 1 = cx by omega]
             exact m2_cell_zero_of H cy cx H.cc)
          | (rw [show cy + d.2 / 2 = cy by omega,
               show cx + d.1 / 2 + 1 = cx by omega]
             exact m2_cell_zero_of H cy cx H.cc)
          | (rw [show cy + d.2 / 2 = cy + d.2 by omega,
               show cx + d.1 / 2 - 1 = cx + d.1 by omega]
             exact m2_cell_n H)
          | (rw [show cy + d.2 / 2 = cy + d.2 by omega,
               show cx + d.1 / 2 + 1 = cx + d.1 by omega]
             exact m2_cell_n H))
    · by_cases hn : y = cy + d.2 ∧ x = cx + d.1
      · obtain ⟨e1, e2⟩ := hn
        exact absurd hxe (by omega)
      · rw [m2_cell_other H y x hmid hn] at h0
        obtain ⟨h9, hl, hr⟩ := H.inv.linksH y x hy hx hyo hxe h0
        exact ⟨h9, m2_cell_zero_of H _ _ hl, m2_cell_zero_of H _ _ hr⟩
  · intro y x hy hx hye hxo h0
    by_cases hmid : y = cy + d.2 / 2 ∧ x = cx + d.1 / 2
    · obtain ⟨e1, e2⟩ := hmid
      subst e1
      subst e2
      have hcyo := H.cyo
      have hcxo := H.cxo
      rcases hdf with ⟨h1, h2 | h2⟩ | ⟨h1, h2 | h2⟩ <;>
        (refine ⟨by omega, ?_, ?_⟩ <;>
        first
          | (rw [show cy + d.2 / 2 - 1 = cy by omega,
               show cx + d.1 / 2 = cx by omega]
             exact m2_cell_zero_of H cy cx H.cc)
          | (rw [show cy + d.2 / 2 + 1 = cy by omega,
               show cx + d.1 / 2 = cx by omega]
             exact m2_cell_zero_of H cy cx H.cc)
          | (rw [show cy + d.2 / 2 - 1 = cy + d.2 by omega,
               show cx + d.1 / 2 = cx + d.1 by omega]
             exact m2_cell_n H)
          | (rw [show cy + d.2 / 2 + 1 = cy + d.2 by omega,
               show cx + d.1 / 2 = cx + d.1 by omega]
             exact m2_cell_n H))
    · by_cases hn : y = cy + d.2 ∧ x = cx + d.1
      · obtain ⟨e1, e2⟩ := hn
        exact absurd hye (by omega)
      · rw [m2_cell_other H y x hmid hn] at h0
        obtain ⟨h9, hl, hr⟩ := H.inv.linksV y x hy hx hye hxo h0
        exact ⟨h9, m2_cell_zero_of H _ _ hl, m2_cell_zero_of H _ _ hr⟩
  · have hle : mazeGraphAll m ≤ mazeGraphAll (m2Of m cx cy d) := by
      intro a b hab
      rw [m2_adj_iff H a b]
      exact Or.inl hab
    have hadjcm : (mazeGraphAll (m2Of m cx cy d)).Adj ((cy, cx) : MazePos)
        (cy + d.2 / 2, cx + d.1 / 2) := by
      rw [m2_adj_iff H]
      exact Or.inr (Or.inl ⟨rfl, rfl⟩)
    have hadjmn : (mazeGraphAll (m2Of m cx cy d)).Adj
        ((cy + d.2 / 2, cx + d.1 / 2) : MazePos) (cy + d.2, cx + d.1) := by
      rw [m2_adj_iff H]
      exact Or.inr (Or.inr (Or.inr (Or.inl ⟨rfl, rfl⟩)))
    have hrc : ∀ p : MazePos, carvedCell (m2Of m cx cy d) p →
        (mazeGraphAll (m2Of m cx cy d)).Reachable p ((cy, cx) : MazePos) := by
      intro p hp
      rw [m2_carved_iff H] at hp
      rcases hp with hp | rfl | rfl
      · have hc0m : carvedCell m ((cy, cx) : MazePos) :=
          ⟨by have := H.cy1; omega, by have := H.cx1; omega, H.cc⟩
        exact (H.inv.conn p _ hp hc0m).mono hle
      · exact hadjcm.symm.reachable
      · exact (hadjmn.symm.reachable).trans (hadjcm.symm.reachable)
    intro p q hp hq
    exact (hrc p hp).trans (hrc q hq).symm
  · refine isAcyclic_pendant H.inv.acyclic (m2_adj_iff H) ?_ ?_ ?_ ?_ ?_
    · intro u hadj
      have h' : carvedCell m ((cy + d.2 / 2, cx + d.1 / 2) : MazePos) ∧
          carvedCell m u ∧ adjacentPos _ u := hadj
      have h0 : mazeCell m (cy + d.2 / 2) (cx + d.1 / 2) = 0 := h'.1.2.2
      exact mid_wall H h0
    · intro u hadj
      have h' : carvedCell m ((cy + d.2, cx + d.1) : MazePos) ∧
          carvedCell m u ∧ adjacentPos _ u := hadj
      have h0 : mazeCell m (cy + d.2) (cx + d.1) = 0 := h'.1.2.2
      have hg := H.g5
      omega
    · intro h
      rw [Prod.ext_iff] at h
      have h1 : cy = cy + d.2 / 2 := h.1
      have h2 : cx = cx + d.1 / 2 := h.2
      exact gne1 ⟨h1.symm, h2.symm⟩
    · intro h
      rw [Prod.ext_iff] at h
      have h1 : cy + d.2 / 2 = cy + d.2 := h.1
      have h2 : cx + d.1 / 2 = cx + d.1 := h.2
      exact gne2 ⟨h1, h2⟩
    · intro h
      rw [Prod.ext_iff] at h
      have h1 : cy = cy + d.2 := h.1
      have h2 : cx = cx + d.1 := h.2
      exact gne3 ⟨h1, h2⟩
  · intro y x
    by_cases h1 : y = cy + d.2 / 2 ∧ x = cx + d.1 / 2
    · rw [h1.1, h1.2]
      exact Or.inl (m2_cell_mid H)
    · by_cases h2 : y = cy + d.2 ∧ x = cx + d.1
      · rw [h2.1, h2.2]
        exact Or.inl (m2_cell_n H)
      · rw [m2_cell_other H y x h1 h2]
        exact H.inv.binary y x

/-- Writing a 0 never un-carves any cell. -/
theorem mazeCell_set_zero_mono (m : Maze) (y x y2 x2 : Int)
    (h : mazeCell m y2 x2 = 0) :
    mazeCell (setMazeCell m y x 0) y2 x2 = 0 := by
  by_cases hd : y2.toNat ≠ y.toNat ∨ x2.toNat ≠ x.toNat
  · rw [mazeCell_setMazeCell_ne m y x 0 y2 x2 hd]
    exact h
  · push_neg at hd
    obtain ⟨h1, h2⟩ := hd
    unfold mazeCell at h ⊢
    unfold setMazeCell
    rw [h1, h2] at h ⊢
    rcases Nat.lt_or_ge y.toNat m.length with hy | hy
    · have hrow : (m.set y.toNat ((m.getD y.toNat []).set x.toNat 0)).getD
          y.toNat [] = (m.getD y.toNat []).set x.toNat 0 := by
        rw [List.getD_eq_getElem?_getD, List.getElem?_set_eq_of_lt _ hy]
        rfl
      rw [hrow]
      rcases Nat.lt_or_ge x.toNat (m.getD y.toNat []).length with hx | hx
      · rw [List.getD_eq_getElem?_getD, List.getElem?_set_eq_of_lt _ hx]
        rfl
      · rw [List.set_eq_of_length_le hx]
        exact h
    · rw [List.set_eq_of_length_le hy]
      exact h

/-- The whole carve walk never un-carves any cell. -/
theorem carveStep_zero_mono (width height : Nat)
    (oracle : Nat → List (Int × Int)) :
    ∀ (fuel : Nat) (m : Maze) (cx cy : Int) (dirs : List (Int × Int))
      (k : Nat) (y x : Int), mazeCell m y x = 0 →
      mazeCell (carveStep width height oracle fuel m cx cy dirs k).1 y x
        = 0 := by
  intro fuel
  induction fuel with
  | zero =>
    intro m cx cy dirs k y x h
    simp only [carveStep]
    exact h
  | succ fuel ih =>
    intro m cx cy dirs k y x h
    cases dirs with
    | nil =>
      simp only [carveStep]
      exact h
    | cons d rest =>
      simp only [carveStep]
      split
      · exact ih _ cx cy rest _ y x
          (ih _ _ _ _ _ y x
            (mazeCell_set_zero_mono _ _ _ y x
              (mazeCell_set_zero_mono m _ _ y x h)))
      · exact ih m cx cy rest k y x h

/-- Every source direction occurs in every shuffle outcome. -/
theorem shuffleOf_complete (oracle : Nat → List (Int × Int)) (k : Nat) :
    ∀ d ∈ carveDirs, d ∈ shuffleOf oracle k := by
  intro d hd
  unfold shuffleOf
  by_cases hp : (oracle k).Perm carveDirs
  · rw [if_pos hp]
    exact hp.mem_iff.mpr hd
  · rw [if_neg hp]
    exact hd

/-- Every shuffle outcome lists four directions. -/
theorem shuffleOf_length (oracle : Nat → List (Int × Int)) (k : Nat) :
    (shuffleOf oracle k).length = 4 := by
  unfold shuffleOf
  by_cases hp : (oracle k).Perm carveDirs
  · rw [if_pos hp, hp.length_eq]
    rfl
  · rw [if_neg hp]
    rfl

/-- The carving invariant is preserved by the whole direction walk, for
any fuel, as long as the cursor is an odd interior carved cell and all
listed directions come from the source list. -/
theorem carveStep_inv (width height : Nat)
    (oracle : Nat → List (Int × Int)) :
    ∀ (fuel : Nat) (m : Maze) (cx cy : Int) (dirs : List (Int × Int))
      (k : Nat),
      CarveInv width height m → width % 2 = 1 → height % 2 = 1 →
      1 ≤ cx → cx ≤ (width : Int) - 2 → cx % 2 = 1 →
      1 ≤ cy → cy ≤ (height : Int) - 2 → cy % 2 = 1 →
      mazeCell m cy cx = 0 →
      (∀ d ∈ dirs, d ∈ carveDirs) →
      CarveInv width height
        (carveStep width height oracle fuel m cx cy dirs k).1 := by
  intro fuel
  induction fuel with
  | zero =>
    intro m cx cy dirs k hinv _ _ _ _ _ _ _ _ _ _
    simp only [carveStep]
    exact hinv
  | succ fuel ih =>
    intro m cx cy dirs k hinv hwo hho hcx1 hcx2 hcxo hcy1 hcy2 hcyo hcc hdirs
    cases dirs with
    | nil =>
      simp only [carveStep]
      exact hinv
    | cons d rest =>
      simp only [carveStep]
      split
      · rename_i hguard
        have H : CarveCtx width height m cx cy d :=
          ⟨hinv, hwo, hho, hdirs d (List.mem_cons_self d rest), hcx1, hcx2,
            hcxo, hcy1, hcy2, hcyo, hcc, hguard.1, hguard.2.1, hguard.2.2.1,
            hguard.2.2.2.1, hguard.2.2.2.2⟩
        obtain ⟨gm1, gm2, gm3, gm4, gn1, gn2, gn3, gn4, gno1, gno2, gpar,
          gne1, gne2, gne3⟩ := carveCtx_geom H
        have hinner : CarveInv width height
            (carveStep width height oracle fuel (m2Of m cx cy d)
              (cx + d.1) (cy + d.2) (shuffleOf oracle k) (k + 1)).1 :=
          ih (m2Of m cx cy d) (cx + d.1) (cy + d.2) (shuffleOf oracle k)
            (k + 1) (carveInv_m2 H) hwo hho gn3 gn4 gno2 gn1 gn2 gno1
            (m2_cell_n H) (shuffleOf_mem oracle k)
        have hcc2 : mazeCell (carveStep width height oracle fuel
            (m2Of m cx cy d) (cx + d.1) (cy + d.2) (shuffleOf oracle k)
            (k + 1)).1 cy cx = 0 :=
          carveStep_zero_mono width height oracle fuel _ _ _ _ _ cy cx
            (m2_cell_zero_of H cy cx hcc)
        exact ih _ cx cy rest _ hinner hwo hho hcx1 hcx2 hcxo hcy1 hcy2
          hcyo hcc2 (fun e he => hdirs e (List.mem_cons_of_mem d he))
      · exact ih m cx cy rest k hinv hwo hho hcx1 hcx2 hcxo hcy1 hcy2 hcyo
          hcc (fun e he => hdirs e (List.mem_cons_of_mem d he))

/-- The odd-odd interior wall cells still to be carved, as a finite set
of grid coordinates. -/
def wallSet (width height : Nat) (m : Maze) : Finset (Nat × Nat) :=
  (Finset.range height ×ˢ Finset.range width).filter
    (fun p => p.1 % 2 = 1 ∧ p.2 % 2 = 1 ∧
      mazeCell m (p.1 : Int) (p.2 : Int) ≠ 0)

/-- How many odd-odd lattice cells are still wall. -/
def wallCount (width height : Nat) (m : Maze) : Nat :=
  (wallSet width height m).card

/-- The wall count never exceeds the grid area. -/
theorem wallCount_le (width height : Nat) (m : Maze) :
    wallCount width height m ≤ height * width := by
  unfold wallCount wallSet
  refine le_trans (Finset.card_filter_le _ _) ?_
  rw [Finset.card_product, Finset.card_range, Finset.card_range]

/-- Carving more cells never increases the wall count. -/
theorem wallCount_mono (width height : Nat) (m m2 : Maze)
    (h : ∀ y x : Int, mazeCell m y x = 0 → mazeCell m2 y x = 0) :
    wallCount width height m2 ≤ wallCount width height m := by
  apply Finset.card_le_card
  intro p hp
  simp only [wallSet, Finset.mem_filter] at hp ⊢
  refine ⟨hp.1, hp.2.1, hp.2.2.1, ?_⟩
  intro h0
  exact hp.2.2.2 (h _ _ h0)

/-- One guarded double write strictly decreases the wall count: the
carved neighbor leaves the wall set. -/
theorem wallCount_m2 {width height : Nat} {m : Maze} {cx cy : Int}
    {d : Int × Int} (H : CarveCtx width height m cx cy d) :
    wallCount width height (m2Of m cx cy d) + 1 ≤
      wallCount width height m := by
  obtain ⟨gm1, gm2, gm3, gm4, gn1, gn2, gn3, gn4, gno1, gno2, gpar, gne1,
    gne2, gne3⟩ := carveCtx_geom H
  have hn0 : (((cy + d.2).toNat, (cx + d.1).toNat) : Nat × Nat) ∈
      wallSet width height m := by
    simp only [wallSet, Finset.mem_filter, Finset.mem_product,
      Finset.mem_range]
    refine ⟨⟨by omega, by omega⟩, by omega, by omega, ?_⟩
    rw [Int.toNat_of_nonneg (by omega : (0 : Int) ≤ cy + d.2),
      Int.toNat_of_nonneg (by omega : (0 : Int) ≤ cx + d.1), H.g5]
    exact one_ne_zero
  have hsub : wallSet width height (m2Of m cx cy d) ⊆
      (wallSet width height m).erase
        (((cy + d.2).toNat, (cx + d.1).toNat) : Nat × Nat) := by
    intro p hp
    obtain ⟨p1, p2⟩ := p
    simp only [wallSet, Finset.mem_filter, Finset.mem_product,
      Finset.mem_range] at hp
    obtain ⟨⟨hp1, hp2⟩, hp3, hp4, hp5⟩ := hp
    rw [Finset.mem_erase]
    constructor
    · intro he
      rw [Prod.mk.injEq] at he
      obtain ⟨he1, he2⟩ := he
      subst he1
      subst he2
      rw [Int.toNat_of_nonneg (by omega : (0 : Int) ≤ cy + d.2),
        Int.toNat_of_nonneg (by omega : (0 : Int) ≤ cx + d.1)] at hp5
      exact hp5 (m2_cell_n H)
    · simp only [wallSet, Finset.mem_filter, Finset.mem_product,
        Finset.mem_range]
      refine ⟨⟨hp1, hp2⟩, hp3, hp4, ?_⟩
      intro h0
      exact hp5 (m2_cell_zero_of H _ _ h0)
  have h1 := Finset.card_le_card hsub
  rw [Finset.card_erase_of_mem hn0] at h1
  have h2 : 0 < (wallSet width height m).card :=
    Finset.card_pos.mpr ⟨_, hn0⟩
  unfold wallCount
  omega

/-- Wall-count monotonicity along the whole carve walk. -/
theorem wallCount_carveStep (width height : Nat)
    (oracle : Nat → List (Int × Int)) (fuel : Nat) (m : Maze)
    (cx cy : Int) (dirs : List (Int × Int)) (k : Nat) :
    wallCount width height
        (carveStep width height oracle fuel m cx cy dirs k).1 ≤
      wallCount width height m :=
  wallCount_mono width height m _
    (fun y x h => carveStep_zero_mono width height oracle fuel m cx cy
      dirs k y x h)

/-- A fully explored lattice cell: each of its four two-away neighbors
that lies in bounds has been carved. -/
def goodCell (width height : Nat) (M : Maze) (zy zx : Int) : Prop :=
  ∀ d ∈ carveDirs, 0 ≤ zx + d.1 → zx + d.1 < (width : Int) →
    0 ≤ zy + d.2 → zy + d.2 < (height : Int) →
    mazeCell M (zy + d.2) (zx + d.1) = 0

/-- Full exploration survives further carving. -/
theorem goodCell_mono (width height : Nat) (M M2 : Maze)
    (h : ∀ y x : Int, mazeCell M y x = 0 → mazeCell M2 y x = 0)
    (zy zx : Int) (hg : goodCell width height M zy zx) :
    goodCell width height M2 zy zx :=
  fun d hd h1 h2 h3 h4 => h _ _ (hg d hd h1 h2 h3 h4)

/-- With enough fuel the walk finishes its work: every in-bounds listed
neighbor of the cursor ends up carved, and every odd-odd cell newly
carved during the walk ends up fully explored. -/
theorem carveStep_cover (width height : Nat)
    (oracle : Nat → List (Int × Int)) :
    ∀ (fuel : Nat) (m : Maze) (cx cy : Int) (dirs : List (Int × Int))
      (k : Nat),
      CarveInv width height m → width % 2 = 1 → height % 2 = 1 →
      1 ≤ cx → cx ≤ (width : Int) - 2 → cx % 2 = 1 →
      1 ≤ cy → cy ≤ (height : Int) - 2 → cy % 2 = 1 →
      mazeCell m cy cx = 0 →
      (∀ d ∈ dirs, d ∈ carveDirs) →
      5 * wallCount width height m + dirs.length + 1 ≤ fuel →
      (∀ d ∈ dirs, 0 ≤ cx + d.1 → cx + d.1 < (width : Int) →
        0 ≤ cy + d.2 → cy + d.2 < (height : Int) →
        mazeCell (carveStep width height oracle fuel m cx cy dirs k).1
          (cy + d.2) (cx + d.1) = 0) ∧
      (∀ zy zx : Int, zy % 2 = 1 → zx % 2 = 1 →
        mazeCell (carveStep width height oracle fuel m cx cy dirs k).1
          zy zx = 0 →
        mazeCell m zy zx ≠ 0 →
        goodCell width height
          (carveStep width height oracle fuel m cx cy dirs k).1 zy zx) := by
  intro fuel
  induction fuel with
  | zero =>
    intro m cx cy dirs k _ _ _ _ _ _ _ _ _ _ _ hfuel
    exact absurd hfuel (by omega)
  | succ fuel ih =>
    intro m cx cy dirs k hinv hwo hho hcx1 hcx2 hcxo hcy1 hcy2 hcyo hcc
      hdirs hfuel
    cases dirs with
    | nil =>
      simp only [carveStep]
      exact ⟨fun e he => absurd he (List.not_mem_nil e),
        fun zy zx _ _ h0 hne => absurd h0 hne⟩
    | cons d rest =>
      simp only [carveStep]
      split
      · rename_i hguard
        have H : CarveCtx width height m cx cy d :=
          ⟨hinv, hwo, hho, hdirs d (List.mem_cons_self d rest), hcx1, hcx2,
            hcxo, hcy1, hcy2, hcyo, hcc, hguard.1, hguard.2.1, hguard.2.2.1,
            hguard.2.2.2.1, hguard.2.2.2.2⟩
        obtain ⟨gm1, gm2, gm3, gm4, gn1, gn2, gn3, gn4, gno1, gno2, gpar,
          gne1, gne2, gne3⟩ := carveCtx_geom H
        have hW := wallCount_m2 H
        have hfin : 5 * wallCount width height (m2Of m cx cy d) +
            (shuffleOf oracle k).length + 1 ≤ fuel := by
          rw [shuffleOf_length]
          simp only [List.length_cons] at hfuel
          omega
        obtain ⟨a_in, b_in⟩ := ih (m2Of m cx cy d) (cx + d.1) (cy + d.2)
          (shuffleOf oracle k) (k + 1) (carveInv_m2 H) hwo hho gn3 gn4
          gno2 gn1 gn2 gno1 (m2_cell_n H) (shuffleOf_mem oracle k) hfin
        have hinv_in : CarveInv width height
            (carveStep width height oracle fuel (m2Of m cx cy d)
              (cx + d.1) (cy + d.2) (shuffleOf oracle k) (k + 1)).1 :=
          carveStep_inv width height oracle fuel (m2Of m cx cy d)
            (cx + d.1) (cy + d.2) (shuffleOf oracle k) (k + 1)
            (carveInv_m2 H) hwo hho gn3 gn4 gno2 gn1 gn2 gno1
            (m2_cell_n H) (shuffleOf_mem oracle k)
        have hwc_in := wallCount_carveStep width height oracle fuel
          (m2Of m cx cy d) (cx + d.1) (cy + d.2) (shuffleOf oracle k)
          (k + 1)
        have hfout : 5 * wallCount width height
            (carveStep width height oracle fuel (m2Of m cx cy d)
              (cx + d.1) (cy + d.2) (shuffleOf oracle k) (k + 1)).1 +
            rest.length + 1 ≤ fuel := by
          simp only [List.length_cons] at hfuel
          omega
        have hcc_in : mazeCell (carveStep width height oracle fuel
            (m2Of m cx cy d) (cx + d.1) (cy + d.2) (shuffleOf oracle k)
            (k + 1)).1 cy cx = 0 :=
          carveStep_zero_mono width height oracle fuel _ _ _ _ _ cy cx
            (m2_cell_zero_of H cy cx hcc)
        obtain ⟨a_out, b_out⟩ := ih _ cx cy rest
          (carveStep width height oracle fuel (m2Of m cx cy d)
            (cx + d.1) (cy + d.2) (shuffleOf oracle k) (k + 1)).2
          hinv_in hwo hho hcx1 hcx2 hcxo hcy1 hcy2 hcyo hcc_in
          (fun e he => hdirs e (List.mem_cons_of_mem d he)) hfout
        have mono_in : ∀ y x : Int, mazeCell (m2Of m cx cy d) y x = 0 →
            mazeCell (carveStep width height oracle fuel (m2Of m cx cy d)
              (cx + d.1) (cy + d.2) (shuffleOf oracle k) (k + 1)).1 y x
              = 0 :=
          fun y x h => carveStep_zero_mono width height oracle fuel _ _ _
            _ _ y x h
        have mono_out : ∀ y x : Int,
            mazeCell (carveStep width height oracle fuel (m2Of m cx cy d)
              (cx + d.1) (cy + d.2) (shuffleOf oracle k) (k + 1)).1 y x
              = 0 →
            mazeCell (carveStep width height oracle fuel
              (carveStep width height oracle fuel (m2Of m cx cy d)
                (cx + d.1) (cy + d.2) (shuffleOf oracle k) (k + 1)).1
              cx cy rest
              (carveStep width height oracle fuel (m2Of m cx cy d)
                (cx + d.1) (cy + d.2) (shuffleOf oracle k) (k + 1)).2).1
              y x = 0 :=
          fun y x h => carveStep_zero_mono width height oracle fuel _ _ _
            _ _ y x h
        constructor
        · intro e he hb1 hb2 hb3 hb4
          rcases List.mem_cons.mp he with rfl | he
          · exact mono_out _ _ (mono_in _ _ (m2_cell_n H))
          · exact a_out e he hb1 hb2 hb3 hb4
        · intro zy zx hzy hzx h0 hne
          by_cases hin : mazeCell (carveStep width height oracle fuel
              (m2Of m cx cy d) (cx + d.1) (cy + d.2) (shuffleOf oracle k)
              (k + 1)).1 zy zx = 0
          · by_cases hm2 : mazeCell (m2Of m cx cy d) zy zx = 0
            · by_cases hmid : zy = cy + d.2 / 2 ∧ zx = cx + d.1 / 2
              · obtain ⟨e1, e2⟩ := hmid
                exact absurd hzy (by omega)
              · by_cases hn0 : zy = cy + d.2 ∧ zx = cx + d.1
                · obtain ⟨e1, e2⟩ := hn0
                  subst e1
                  subst e2
                  intro e he hb1 hb2 hb3 hb4
                  exact mono_out _ _
                    (a_in e (shuffleOf_complete oracle k e he) hb1 hb2
                      hb3 hb4)
                · rw [m2_cell_other H zy zx hmid hn0] at hm2
                  exact absurd hm2 hne
            · exact goodCell_mono width height _ _ mono_out zy zx
                (b_in zy zx hzy hzx hin hm2)
          · exact b_out zy zx hzy hzx h0 hin
      · rename_i hguard
        have hfr : 5 * wallCount width height m + rest.length + 1
            ≤ fuel := by
          simp only [List.length_cons] at hfuel
          omega
        obtain ⟨a_r, b_r⟩ := ih m cx cy rest k hinv hwo hho hcx1 hcx2 hcxo
          hcy1 hcy2 hcyo hcc
          (fun e he => hdirs e (List.mem_cons_of_mem d he)) hfr
        refine ⟨?_, b_r⟩
        intro e he hb1 hb2 hb3 hb4
        rcases List.mem_cons.mp he with rfl | he
        · rcases hinv.binary (cy + e.2) (cx + e.1) with h0 | h1
          · exact carveStep_zero_mono width height oracle fuel m cx cy
              rest k _ _ h0
          · exact absurd ⟨hb1, hb2, hb3, hb4, h1⟩ hguard
        · exact a_r e he hb1 hb2 hb3 hb4

/-- The initial all-wall grid has the right shape. -/
theorem gridShape_replicate (width height : Nat) :
    gridShape width height
      (List.replicate height (List.replicate width 1)) := by
  constructor
  · rw [List.length_replicate]
  · intro row hrow
    rw [List.eq_of_mem_replicate hrow, List.length_replicate]

/-- Cell reads only depend on the clamped coordinates. -/
theorem mazeCell_toNat_congr (m : Maze) {y x y2 x2 : Int}
    (h1 : y.toNat = y2.toNat) (h2 : x.toNat = x2.toNat) :
    mazeCell m y x = mazeCell m y2 x2 := by
  unfold mazeCell
  rw [h1, h2]

/-- Rewriting the row coordinate of a read. -/
theorem mazeCell_row_congr (m : Maze) (b : Int) {a a2 : Int}
    (h : a = a2) : mazeCell m a b = mazeCell m a2 b := by
  rw [h]

/-- Rewriting the column coordinate of a read. -/
theorem mazeCell_col_congr (m : Maze) (a : Int) {b b2 : Int}
    (h : b = b2) : mazeCell m a b = mazeCell m a b2 := by
  rw [h]

/-- Writing the value a cell already holds changes no read. -/
theorem mazeCell_setMazeCell_noop (m : Maze) (y x : Int) (v : Nat)
    (hval : mazeCell m y x = v) (y2 x2 : Int) :
    mazeCell (setMazeCell m y x v) y2 x2 = mazeCell m y2 x2 := by
  by_cases hd : y2.toNat ≠ y.toNat ∨ x2.toNat ≠ x.toNat
  · exact mazeCell_setMazeCell_ne m y x v y2 x2 hd
  · push_neg at hd
    obtain ⟨h1, h2⟩ := hd
    rw [mazeCell_toNat_congr (setMazeCell m y x v) h1 h2,
      mazeCell_toNat_congr m h1 h2]
    unfold mazeCell setMazeCell
    rcases Nat.lt_or_ge y.toNat m.length with hy | hy
    · have hrow : (m.set y.toNat ((m.getD y.toNat []).set x.toNat v)).getD
          y.toNat [] = (m.getD y.toNat []).set x.toNat v := by
        rw [List.getD_eq_getElem?_getD, List.getElem?_set_eq_of_lt _ hy]
        rfl
      rw [hrow]
      rcases Nat.lt_or_ge x.toNat (m.getD y.toNat []).length with hx | hx
      · rw [List.getD_eq_getElem?_getD, List.getElem?_set_eq_of_lt _ hx]
        rw [show (m.getD y.toNat []).getD x.toNat 1 = v from hval]
        rfl
      · rw [List.set_eq_of_length_le hx]
    · rw [List.set_eq_of_length_le hy]

/-- The carving invariant holds right after the start cell is carved
out of the all-wall grid. -/
theorem carveInv_start (width height : Nat) (sx sy : Int)
    (hwo : width % 2 = 1) (hho : height % 2 = 1)
    (hsx1 : 1 ≤ sx) (hsx2 : sx ≤ (width : Int) - 2) (hsxo : sx % 2 = 1)
    (hsy1 : 1 ≤ sy) (hsy2 : sy ≤ (height : Int) - 2) (hsyo : sy % 2 = 1) :
    CarveInv width height
      (setMazeCell (List.replicate height (List.replicate width 1))
        sy sx 0) := by
  have hs0 : gridShape width height
      (List.replicate height (List.replicate width 1)) :=
    gridShape_replicate width height
  have hsame : mazeCell (setMazeCell
      (List.replicate height (List.replicate width 1)) sy sx 0) sy sx
      = 0 :=
    mazeCell_setMazeCell_same width height _ hs0 sy sx 0 (by omega)
      (by omega) (by omega) (by omega)
  have hother : ∀ y x : Int,
      (y.toNat ≠ sy.toNat ∨ x.toNat ≠ sx.toNat) →
      mazeCell (setMazeCell
        (List.replicate height (List.replicate width 1)) sy sx 0) y x
        = 1 := by
    intro y x h
    rw [mazeCell_setMazeCell_ne _ _ _ _ _ _ h, mazeCell_replicate]
  have hzero : ∀ y x : Int,
      mazeCell (setMazeCell
        (List.replicate height (List.replicate width 1)) sy sx 0) y x
        = 0 →
      y.toNat = sy.toNat ∧ x.toNat = sx.toNat := by
    intro y x h0
    by_cases h : y.toNat = sy.toNat ∧ x.toNat = sx.toNat
    · exact h
    · rw [hother y x (by omega)] at h0
      exact absurd h0 one_ne_zero
  have hcarve : ∀ p : MazePos, carvedCell (setMazeCell
      (List.replicate height (List.replicate width 1)) sy sx 0) p →
      p = ((sy, sx) : MazePos) := by
    intro p hp
    obtain ⟨hp1, hp2, hp0⟩ := hp
    have h := hzero p.1 p.2 hp0
    rw [Prod.ext_iff]
    constructor
    · show p.1 = sy
      omega
    · show p.2 = sx
      omega
  refine ⟨gridShape_setMazeCell width height _ hs0 sy sx 0, ?_, ?_, ?_,
    ?_, ?_, ?_⟩
  · intro y x hy hx hey hex
    exact hother y x (by omega)
  · intro y x hy hx hyo hxe h0
    exact absurd (hzero y x h0).2 (by omega)
  · intro y x hy hx hye hxo h0
    exact absurd (hzero y x h0).1 (by omega)
  · intro p q hp hq
    have h1 := hcarve p hp
    have h2 := hcarve q hq
    rw [h1, h2]
  · intro v c hc
    cases c with
    | nil => exact hc.ne_nil rfl
    | cons hadj p =>
      have h' : carvedCell (setMazeCell
          (List.replicate height (List.replicate width 1)) sy sx 0) v ∧
          carvedCell (setMazeCell
            (List.replicate height (List.replicate width 1)) sy sx 0) _ ∧
          adjacentPos v _ := hadj
      have h1 := hcarve v h'.1
      have h2 := hcarve _ h'.2.1
      have h3 := h'.2.2
      rw [h1, h2] at h3
      exact adjacentPos_irrefl _ h3
  · intro y x
    by_cases h : y.toNat = sy.toNat ∧ x.toNat = sx.toNat
    · left
      rw [mazeCell_toNat_congr _ h.1 h.2]
      exact hsame
    · right
      exact hother y x (by omega)

/-- Step right out of a fully explored cell. -/
theorem goodCell_stepR (width height : Nat) (M : Maze) (zy zx : Int)
    (hg : goodCell width height M zy zx)
    (h1 : 0 ≤ zx + 2) (h2 : zx + 2 < (width : Int))
    (h3 : 0 ≤ zy) (h4 : zy < (height : Int)) :
    mazeCell M zy (zx + 2) = 0 := by
  rw [mazeCell_row_congr M (zx + 2)
      (show zy = zy + (((2 : Int), (0 : Int)).2) by simp),
    mazeCell_col_congr M _
      (show zx + 2 = zx + (((2 : Int), (0 : Int)).1) by simp)]
  exact hg (2, 0) (by simp [carveDirs])
    (by show (0 : Int) ≤ zx + 2; omega)
    (by show zx + 2 < (width : Int); omega)
    (by show (0 : Int) ≤ zy + 0; omega)
    (by show zy + 0 < (height : Int); omega)

/-- Step left out of a fully explored cell. -/
theorem goodCell_stepL (width height : Nat) (M : Maze) (zy zx : Int)
    (hg : goodCell width height M zy zx)
    (h1 : 0 ≤ zx - 2) (h2 : zx - 2 < (width : Int))
    (h3 : 0 ≤ zy) (h4 : zy < (height : Int)) :
    mazeCell M zy (zx - 2) = 0 := by
  rw [mazeCell_row_congr M (zx - 2)
      (show zy = zy + (((-2 : Int), (0 : Int)).2) by simp),
    mazeCell_col_congr M _
      (show zx - 2 = zx + (((-2 : Int), (0 : Int)).1) by
        simp [sub_eq_add_neg])]
  exact hg (-2, 0) (by simp [carveDirs])
    (by show (0 : Int) ≤ zx + -2; omega)
    (by show zx + -2 < (width : Int); omega)
    (by show (0 : Int) ≤ zy + 0; omega)
    (by show zy + 0 < (height : Int); omega)

/-- Step down out of a fully explored cell. -/
theorem goodCell_stepD (width height : Nat) (M : Maze) (zy zx : Int)
    (hg : goodCell width height M zy zx)
    (h1 : 0 ≤ zy + 2) (h2 : zy + 2 < (height : Int))
    (h3 : 0 ≤ zx) (h4 : zx < (width : Int)) :
    mazeCell M (zy + 2) zx = 0 := by
  rw [mazeCell_col_congr M (zy + 2)
      (show zx = zx + (((0 : Int), (2 : Int)).1) by simp),
    mazeCell_row_congr M _
      (show zy + 2 = zy + (((0 : Int), (2 : Int)).2) by simp)]
  exact hg (0, 2) (by simp [carveDirs])
    (by show (0 : Int) ≤ zx + 0; omega)
    (by show zx + 0 < (width : Int); omega)
    (by show (0 : Int) ≤ zy + 2; omega)
    (by show zy + 2 < (height : Int); omega)

/-- Step up out of a fully explored cell. -/
theorem goodCell_stepU (width height : Nat) (M : Maze) (zy zx : Int)
    (hg : goodCell width height M zy zx)
    (h1 : 0 ≤ zy - 2) (h2 : zy - 2 < (height : Int))
    (h3 : 0 ≤ zx) (h4 : zx < (width : Int)) :
    mazeCell M (zy - 2) zx = 0 := by
  rw [mazeCell_col_congr M (zy - 2)
      (show zx = zx + (((0 : Int), (-2 : Int)).1) by simp),
    mazeCell_row_congr M _
      (show zy - 2 = zy + (((0 : Int), (-2 : Int)).2) by
        simp [sub_eq_add_neg])]
  exact hg (0, -2) (by simp [carveDirs])
    (by show (0 : Int) ≤ zx + 0; omega)
    (by show zx + 0 < (width : Int); omega)
    (by show (0 : Int) ≤ zy + -2; omega)
    (by show zy + -2 < (height : Int); omega)

/-- If every carved odd-odd cell is fully explored and the start cell
is carved, then every odd-odd interior cell is carved: walk from any
such cell toward the start, one lattice step at a time. -/
theorem lattice_cover (width height : Nat) (M : Maze) (sx sy : Int)
    (hall : ∀ zy zx : Int, zy % 2 = 1 → zx % 2 = 1 →
      mazeCell M zy zx = 0 → goodCell width height M zy zx)
    (hstart : mazeCell M sy sx = 0)
    (hsx1 : 1 ≤ sx) (hsx2 : sx ≤ (width : Int) - 2) (hsxo : sx % 2 = 1)
    (hsy1 : 1 ≤ sy) (hsy2 : sy ≤ (height : Int) - 2)
    (hsyo : sy % 2 = 1) :
    ∀ zy zx : Int, 1 ≤ zy → zy ≤ (height : Int) - 2 → zy % 2 = 1 →
      1 ≤ zx → zx ≤ (width : Int) - 2 → zx % 2 = 1 →
      mazeCell M zy zx = 0 := by
  have key : ∀ n : Nat, ∀ zy zx : Int,
      1 ≤ zy → zy ≤ (height : Int) - 2 → zy % 2 = 1 →
      1 ≤ zx → zx ≤ (width : Int) - 2 → zx % 2 = 1 →
      (zy - sy).natAbs + (zx - sx).natAbs = n →
      mazeCell M zy zx = 0 := by
    intro n
    induction n using Nat.strong_induction_on with
    | _ n ih =>
      intro zy zx h1 h2 h3 h4 h5 h6 hd
      rcases lt_trichotomy zy sy with hy | hy | hy
      · have hz : mazeCell M (zy + 2) zx = 0 :=
          ih ((zy + 2 - sy).natAbs + (zx - sx).natAbs) (by omega)
            (zy + 2) zx (by omega) (by omega) (by omega) h4 h5 h6 rfl
        have hg := hall (zy + 2) zx (by omega) h6 hz
        have h := goodCell_stepU width height M (zy + 2) zx hg
          (by omega) (by omega) (by omega) (by omega)
        rw [mazeCell_row_congr M zx (show zy = zy + 2 - 2 by omega)]
        exact h
      · rcases lt_trichotomy zx sx with hx | hx | hx
        · have hz : mazeCell M zy (zx + 2) = 0 :=
            ih ((zy - sy).natAbs + (zx + 2 - sx).natAbs) (by omega)
              zy (zx + 2) h1 h2 h3 (by omega) (by omega) (by omega) rfl
          have hg := hall zy (zx + 2) h3 (by omega) hz
          have h := goodCell_stepL width height M zy (zx + 2) hg
            (by omega) (by omega) (by omega) (by omega)
          rw [mazeCell_col_congr M zy (show zx = zx + 2 - 2 by omega)]
          exact h
        · rw [mazeCell_row_congr M zx hy, mazeCell_col_congr M sy hx]
          exact hstart
        · have hz : mazeCell M zy (zx - 2) = 0 :=
            ih ((zy - sy).natAbs + (zx - 2 - sx).natAbs) (by omega)
              zy (zx - 2) h1 h2 h3 (by omega) (by omega) (by omega) rfl
          have hg := hall zy (zx - 2) h3 (by omega) hz
          have h := goodCell_stepR width height M zy (zx - 2) hg
            (by omega) (by omega) (by omega) (by omega)
          rw [mazeCell_col_congr M zy (show zx = zx - 2 + 2 by omega)]
          exact h
      · have hz : mazeCell M (zy - 2) zx = 0 :=
          ih ((zy - 2 - sy).natAbs + (zx - sx).natAbs) (by omega)
            (zy - 2) zx (by omega) (by omega) (by omega) h4 h5 h6 rfl
        have hg := hall (zy - 2) zx (by omega) h6 hz
        have h := goodCell_stepD width height M (zy - 2) zx hg
          (by omega) (by omega) (by omega) (by omega)
        rw [mazeCell_row_congr M zx (show zy = zy - 2 + 2 by omega)]
        exact h
  intro zy zx h1 h2 h3 h4 h5 h6
  exact key ((zy - sy).natAbs + (zx - sx).natAbs) zy zx h1 h2 h3 h4 h5 h6
    rfl

/-- The carving invariant transfers across any maze with the same reads
and the same shape. -/
theorem carveInv_congr (width height : Nat) (m m2 : Maze)
    (hs : gridShape width height m2)
    (hcell : ∀ y x : Int, mazeCell m2 y x = mazeCell m y x)
    (hinv : CarveInv width height m) : CarveInv width height m2 := by
  have hcarve : ∀ p : MazePos, carvedCell m2 p ↔ carvedCell m p := by
    intro p
    unfold carvedCell
    rw [hcell]
  have hgraph : mazeGraphAll m2 = mazeGraphAll m := by
    ext u v
    constructor
    · intro h
      have h' : carvedCell m2 u ∧ carvedCell m2 v ∧ adjacentPos u v := h
      exact ⟨(hcarve u).mp h'.1, (hcarve v).mp h'.2.1, h'.2.2⟩
    · intro h
      have h' : carvedCell m u ∧ carvedCell m v ∧ adjacentPos u v := h
      exact ⟨(hcarve u).mpr h'.1, (hcarve v).mpr h'.2.1, h'.2.2⟩
  refine ⟨hs, ?_, ?_, ?_, ?_, ?_, ?_⟩
  · intro y x hy hx hey hex
    rw [hcell]
    exact hinv.evenWall y x hy hx hey hex
  · intro y x hy hx hyo hxe h0
    rw [hcell] at h0
    obtain ⟨ha, hb, hc⟩ := hinv.linksH y x hy hx hyo hxe h0
    exact ⟨ha, by rw [hcell]; exact hb, by rw [hcell]; exact hc⟩
  · intro y x hy hx hye hxo h0
    rw [hcell] at h0
    obtain ⟨ha, hb, hc⟩ := hinv.linksV y x hy hx hye hxo h0
    exact ⟨ha, by rw [hcell]; exact hb, by rw [hcell]; exact hc⟩
  · intro p q hp hq
    rw [hgraph]
    exact hinv.conn p q ((hcarve p).mp hp) ((hcarve q).mp hq)
  · rw [hgraph]
    exact hinv.acyclic
  · intro y x
    rw [hcell]
    exact hinv.binary y x

/-- The carve phase of generate_maze: the invariant holds at its end
and every odd-odd interior cell has been carved. -/
theorem carve_path_perfect (width height : Nat)
    (oracle : Nat → List (Int × Int)) (sx sy : Int)
    (hwo : width % 2 = 1) (hho : height % 2 = 1)
    (hsx1 : 1 ≤ sx) (hsx2 : sx ≤ (width : Int) - 2) (hsxo : sx % 2 = 1)
    (hsy1 : 1 ≤ sy) (hsy2 : sy ≤ (height : Int) - 2)
    (hsyo : sy % 2 = 1) :
    CarveInv width height
      (carve_path width height oracle (5 * width * height + 5)
        (List.replicate height (List.replicate width 1)) sx sy 0).1 ∧
    (∀ zy zx : Int, 1 ≤ zy → zy ≤ (height : Int) - 2 → zy % 2 = 1 →
      1 ≤ zx → zx ≤ (width : Int) - 2 → zx % 2 = 1 →
      mazeCell (carve_path width height oracle (5 * width * height + 5)
        (List.replicate height (List.replicate width 1)) sx sy 0).1
        zy zx = 0) := by
  have hs0 : gridShape width height
      (List.replicate height (List.replicate width 1)) :=
    gridShape_replicate width height
  have hinv0 : CarveInv width height
      (setMazeCell (List.replicate height (List.replicate width 1))
        sy sx 0) :=
    carveInv_start width height sx sy hwo hho hsx1 hsx2 hsxo hsy1 hsy2
      hsyo
  have hcc0 : mazeCell (setMazeCell
      (List.replicate height (List.replicate width 1)) sy sx 0) sy sx
      = 0 :=
    mazeCell_setMazeCell_same width height _ hs0 sy sx 0 (by omega)
      (by omega) (by omega) (by omega)
  have hfuel : 5 * wallCount width height
      (setMazeCell (List.replicate height (List.replicate width 1))
        sy sx 0) + (shuffleOf oracle 0).length + 1 ≤
      5 * width * height + 5 := by
    rw [shuffleOf_length]
    have h := wallCount_le width height
      (setMazeCell (List.replicate height (List.replicate width 1))
        sy sx 0)
    rw [Nat.mul_comm] at h
    have h2 : 5 * wallCount width height
        (setMazeCell (List.replicate height (List.replicate width 1))
          sy sx 0) + 4 + 1 ≤ 5 * (width * height) + 5 := by omega
    rw [← Nat.mul_assoc] at h2
    exact h2
  obtain ⟨a_top, b_top⟩ := carveStep_cover width height oracle
    (5 * width * height + 5)
    (setMazeCell (List.replicate height (List.replicate width 1))
      sy sx 0) sx sy (shuffleOf oracle 0) 1 hinv0 hwo hho hsx1 hsx2
    hsxo hsy1 hsy2 hsyo hcc0 (shuffleOf_mem oracle 0) hfuel
  have hinv1 : CarveInv width height
      (carveStep width height oracle (5 * width * height + 5)
        (setMazeCell (List.replicate height (List.replicate width 1))
          sy sx 0) sx sy (shuffleOf oracle 0) 1).1 :=
    carveStep_inv width height oracle (5 * width * height + 5)
      (setMazeCell (List.replicate height (List.replicate width 1))
        sy sx 0) sx sy (shuffleOf oracle 0) 1 hinv0 hwo hho hsx1 hsx2
      hsxo hsy1 hsy2 hsyo hcc0 (shuffleOf_mem oracle 0)
  have hstart1 : mazeCell (carveStep width height oracle
      (5 * width * height + 5)
      (setMazeCell (List.replicate height (List.replicate width 1))
        sy sx 0) sx sy (shuffleOf oracle 0) 1).1 sy sx = 0 :=
    carveStep_zero_mono width height oracle _ _ _ _ _ _ sy sx hcc0
  have hall : ∀ zy zx : Int, zy % 2 = 1 → zx % 2 = 1 →
      mazeCell (carveStep width height oracle (5 * width * height + 5)
        (setMazeCell (List.replicate height (List.replicate width 1))
          sy sx 0) sx sy (shuffleOf oracle 0) 1).1 zy zx = 0 →
      goodCell width height
        (carveStep width height oracle (5 * width * height + 5)
          (setMazeCell (List.replicate height (List.replicate width 1))
            sy sx 0) sx sy (shuffleOf oracle 0) 1).1 zy zx := by
    intro zy zx hzy hzx h0
    by_cases hst : zy.toNat = sy.toNat ∧ zx.toNat = sx.toNat
    · have he1 : zy = sy := by omega
      have he2 : zx = sx := by omega
      subst he1
      subst he2
      intro e he hb1 hb2 hb3 hb4
      exact a_top e (shuffleOf_complete oracle 0 e he) hb1 hb2 hb3 hb4
    · apply b_top zy zx hzy hzx h0
      rw [mazeCell_setMazeCell_ne _ _ _ _ _ _ (by omega),
        mazeCell_replicate]
      exact one_ne_zero
  constructor
  · exact hinv1
  · exact lattice_cover width height _ sx sy hall hstart1 hsx1 hsx2
      hsxo hsy1 hsy2 hsyo

/-- Claim C7: for every odd width ≥ 3 and odd height ≥ 3 and every
outcome of the random choices (start draws and shuffle oracle),
generate_maze returns a grid in which (1,1) and (height-2, width-2)
are PATH cells, every PATH cell is reachable from every other PATH
cell through 4-adjacent PATH cells, and the PATH cells contain no
cycle (perfect maze). -/
theorem generate_maze_perfect (width height startW startH : Nat)
    (oracle : Nat → List (Int × Int))
    (hw3 : 3 ≤ width) (hwo : width % 2 = 1)
    (hh3 : 3 ≤ height) (hho : height % 2 = 1) :
    mazeCell (generate_maze width height startW startH oracle) 1 1 = 0 ∧
    mazeCell (generate_maze width height startW startH oracle)
      (((height - 2 : Nat) : Int)) (((width - 2 : Nat) : Int)) = 0 ∧
    (∀ p q : MazePos,
      carvedCell (generate_maze width height startW startH oracle) p →
      carvedCell (generate_maze width height startW startH oracle) q →
      (mazeGraphAll
        (generate_maze width height startW startH oracle)).Reachable
        p q) ∧
    (mazeGraphAll
      (generate_maze width height startW startH oracle)).IsAcyclic := by
  obtain ⟨ha1, ha2, ha3⟩ := oddPick_spec width startW hwo hw3
  obtain ⟨hb1, hb2, hb3⟩ := oddPick_spec height startH hho hh3
  obtain ⟨hinv1, hcov⟩ := carve_path_perfect width height oracle
    ((oddPick width startW : Nat) : Int)
    ((oddPick height startH : Nat) : Int) hwo hho (by omega) (by omega)
    (by omega) (by omega) (by omega) (by omega)
  have hc11 : mazeCell (carve_path width height oracle
      (5 * width * height + 5)
      (List.replicate height (List.replicate width 1))
      ((oddPick width startW : Nat) : Int)
      ((oddPick height startH : Nat) : Int) 0).1 1 1 = 0 :=
    hcov 1 1 (by omega) (by omega) (by omega) (by omega) (by omega)
      (by omega)
  have hcex : mazeCell (carve_path width height oracle
      (5 * width * height + 5)
      (List.replicate height (List.replicate width 1))
      ((oddPick width startW : Nat) : Int)
      ((oddPick height startH : Nat) : Int) 0).1
      (((height - 2 : Nat) : Int)) (((width - 2 : Nat) : Int)) = 0 :=
    hcov _ _ (by omega) (by omega) (by omega) (by omega) (by omega)
      (by omega)
  have hnoop1 := mazeCell_setMazeCell_noop _ 1 1 0 hc11
  have hcex2 : mazeCell (setMazeCell (carve_path width height oracle
      (5 * width * height + 5)
      (List.replicate height (List.replicate width 1))
      ((oddPick width startW : Nat) : Int)
      ((oddPick height startH : Nat) : Int) 0).1 1 1 0)
      (((height - 2 : Nat) : Int)) (((width - 2 : Nat) : Int)) = 0 := by
    rw [hnoop1]
    exact hcex
  have hnoop2 := mazeCell_setMazeCell_noop _
    (((height - 2 : Nat) : Int)) (((width - 2 : Nat) : Int)) 0 hcex2
  have htot : ∀ y x : Int, mazeCell
      (setMazeCell (setMazeCell (carve_path width height oracle
        (5 * width * height + 5)
        (List.replicate height (List.replicate width 1))
        ((oddPick width startW : Nat) : Int)
        ((oddPick height startH : Nat) : Int) 0).1 1 1 0)
        (((height - 2 : Nat) : Int)) (((width - 2 : Nat) : Int)) 0) y x
      = mazeCell (carve_path width height oracle
        (5 * width * height + 5)
        (List.replicate height (List.replicate width 1))
        ((oddPick width startW : Nat) : Int)
        ((oddPick height startH : Nat) : Int) 0).1 y x :=
    fun y x => (hnoop2 y x).trans (hnoop1 y x)
  have hshape : gridShape width height
      (setMazeCell (setMazeCell (carve_path width height oracle
        (5 * width * height + 5)
        (List.replicate height (List.replicate width 1))
        ((oddPick width startW : Nat) : Int)
        ((oddPick height startH : Nat) : Int) 0).1 1 1 0)
        (((height - 2 : Nat) : Int)) (((width - 2 : Nat) : Int)) 0) :=
    gridShape_setMazeCell width height _
      (gridShape_setMazeCell width height _ hinv1.shape 1 1 0) _ _ 0
  have hinvM : CarveInv width height
      (setMazeCell (setMazeCell (carve_path width height oracle
        (5 * width * height + 5)
        (List.replicate height (List.replicate width 1))
        ((oddPick width startW : Nat) : Int)
        ((oddPick height startH : Nat) : Int) 0).1 1 1 0)
        (((height - 2 : Nat) : Int)) (((width - 2 : Nat) : Int)) 0) :=
    carveInv_congr width height _ _ hshape htot hinv1
  have hgen : generate_maze width height startW startH oracle =
      setMazeCell (setMazeCell (carve_path width height oracle
        (5 * width * height + 5)
        (List.replicate height (List.replicate width 1))
        ((oddPick width startW : Nat) : Int)
        ((oddPick height startH : Nat) : Int) 0).1 1 1 0)
        (((height - 2 : Nat) : Int)) (((width - 2 : Nat) : Int)) 0 := rfl
  rw [hgen]
  refine ⟨?_, ?_, hinvM.conn, hinvM.acyclic⟩
  · rw [htot]
    exact hc11
  · rw [htot]
    exact hcex

/-- Witness for C7 at the smallest grid, deterministic draws. -/
theorem generate_maze_perfect_witness :
    (3 ≤ 3 ∧ 3 % 2 = 1) ∧
    (mazeCell (generate_maze 3 3 1 1 (fun _ => carveDirs)) 1 1 = 0 ∧
    mazeCell (generate_maze 3 3 1 1 (fun _ => carveDirs))
      (((3 - 2 : Nat) : Int)) (((3 - 2 : Nat) : Int)) = 0 ∧
    (∀ p q : MazePos,
      carvedCell (generate_maze 3 3 1 1 (fun _ => carveDirs)) p →
      carvedCell (generate_maze 3 3 1 1 (fun _ => carveDirs)) q →
      (mazeGraphAll
        (generate_maze 3 3 1 1 (fun _ => carveDirs))).Reachable p q) ∧
    (mazeGraphAll
      (generate_maze 3 3 1 1 (fun _ => carveDirs))).IsAcyclic) :=
  ⟨⟨by decide, by decide⟩,
    generate_maze_perfect 3 3 1 1 (fun _ => carveDirs) (by decide)
      (by decide) (by decide) (by decide)⟩
